import Mathlib

/-!
Verification of the graph-theory toolkit: shallow embedding of the three
`GraphStorage` backends (adjacency list, adjacency matrix, edge list), the
d-ary heap, the indexed priority queue and the DFS topological-sort strategy,
with theorems settling the specification claims.

Conventions of the embedding:
* JS `number` edge weights are either finite or `Infinity`; we model them as
  `Option Int`, with `none` standing for `Infinity`.
* Vertex indices are `Nat` (the sources reject negative indices up front, so
  the claims only concern non-negative ones).
* Methods that can `throw` return `Except String`; the thrown message is the
  error value.
* JS `Map` is modelled as an insertion-ordered association list: `set` updates
  an existing key in place, otherwise appends.
-/

namespace GraphTheory

instance exceptDecEq {ε α : Type} [DecidableEq ε] [DecidableEq α] : DecidableEq (Except ε α)
  | .ok x, .ok y =>
    if h : x = y then .isTrue (by rw [h]) else .isFalse (fun hc => h (Except.ok.inj hc))
  | .ok _, .error _ => .isFalse (fun hc => Except.noConfusion hc)
  | .error _, .ok _ => .isFalse (fun hc => Except.noConfusion hc)
  | .error x, .error y =>
    if h : x = y then .isTrue (by rw [h]) else .isFalse (fun hc => h (Except.error.inj hc))

/-- Edge weights: `some w` is a finite weight, `none` is JS `Infinity`. -/
abbrev W := Option Int

/-- JS `Map.get`. -/
def mapGet {β : Type} (m : List (Nat × β)) (k : Nat) : Option β :=
  match m with
  | [] => none
  | (k₁, v₁) :: rest => if k₁ = k then some v₁ else mapGet rest k

/-- JS `Map.set`: update the entry in place if the key exists, else append. -/
def mapSet {β : Type} (m : List (Nat × β)) (k : Nat) (v : β) : List (Nat × β) :=
  match m with
  | [] => [(k, v)]
  | (k₁, v₁) :: rest => if k₁ = k then (k, v) :: rest else (k₁, v₁) :: mapSet rest k v

/-- JS `Map.delete`. -/
def mapDelete {β : Type} (m : List (Nat × β)) (k : Nat) : List (Nat × β) :=
  match m with
  | [] => []
  | (k₁, v₁) :: rest => if k₁ = k then rest else (k₁, v₁) :: mapDelete rest k

namespace AdjacencyList

/-- `AdjacencyList_GraphStorage`: `vertices` counter plus
`adjacencyList : Map<number, Map<number, number>>`. -/
structure St where
  vertices : Nat
  adj : List (Nat × List (Nat × Int))
deriving DecidableEq, Repr

/-- `constructor(size?)`. -/
def init (size : Option Nat) : St := ⟨size.getD 0, []⟩

/-- `constructor()` with no argument. -/
def empty : St := init none

/-- `setEdge(source, destination, weight?)`.  The source first materialises an
empty inner map for `source` if absent, stores `weight ?? 0` under
`destination`, then grows `vertices` to `max(vertices, source+1, destination+1)`.
(Negative indices, which the source rejects, cannot arise for `Nat`.) -/
def setEdge (st : St) (source destination : Nat) (weight : Option Int) : St :=
  let adj1 := match mapGet st.adj source with
    | some _ => st.adj
    | none => mapSet st.adj source []
  let inner := (mapGet adj1 source).getD []
  let adj2 := mapSet adj1 source (mapSet inner destination (weight.getD 0))
  ⟨max st.vertices (max (source + 1) (destination + 1)), adj2⟩

/-- `weight(source, destination)`: bounds check against `size() - 1`, then
`Infinity` when the inner map has no entry, else the stored weight. -/
def weight (st : St) (source destination : Nat) : Except String W :=
  if st.vertices ≤ source ∨ st.vertices ≤ destination then
    .error "Out of graph bound"
  else
    match mapGet st.adj source with
    | none => .ok none
    | some inner =>
      match mapGet inner destination with
      | none => .ok none
      | some w => .ok (some w)

/-- `neighbors(vertex)`: the keys of the inner map, in insertion order. -/
def neighbors (st : St) (vertex : Nat) : Except String (List Nat) :=
  if st.vertices ≤ vertex then .error "Out of graph bound"
  else .ok (((mapGet st.adj vertex).getD []).map Prod.fst)

end AdjacencyList

namespace AdjacencyMatrix

/-- `AdjacencyMatrix_GraphStorage`.  JS rows are array *references*: the
constructor `new Array(size).fill(new Array(size).fill(Infinity))` makes every
row the same array object.  We model the reference structure explicitly:
`rowIds` is the `adjacencyMatrix` array of row references, and `store` is the
heap of row arrays, indexed by row id. -/
structure St where
  vertices : Nat
  rowIds : List Nat
  store : List (List W)
deriving DecidableEq, Repr

/-- `constructor()` with no argument. -/
def empty : St := ⟨0, [], []⟩

/-- `constructor(size)`: one shared row, referenced by every entry of
`adjacencyMatrix`. -/
def init (size : Nat) : St :=
  ⟨size, List.replicate size 0, [List.replicate size (none : W)]⟩

/-- The row referenced by `adjacencyMatrix[i]`. -/
def row (st : St) (i : Nat) : List W :=
  st.store.getD (st.rowIds.getD i 0) []

/-- JS array element assignment `arr[j] = v`.  In the source every write is at
`j < arr.length` or at `j = arr.length` (the growth loop writes new columns in
ascending order), so no holes arise; out-of-order writes pad with `none`. -/
def writeAt (arr : List W) (j : Nat) (v : W) : List W :=
  if j < arr.length then arr.set j v
  else arr ++ List.replicate (j - arr.length) (none : W) ++ [v]

/-- One iteration of the growth loop of `setEdge` at row index `i`:
rows `i ≤ lastIndex` get columns `lastIndex+1 .. greaterIndex` set to
`Infinity`; later `i` get a fresh row of length `greaterIndex+1` filled with
`Infinity` (assigned at position `i`, which is an append since `i` runs in
ascending order past the end). -/
def growStep (oldVerts greater : Nat) (acc : List Nat × List (List W)) (i : Nat) :
    List Nat × List (List W) :=
  if i < oldVerts then
    (acc.1, (List.range' oldVerts (greater + 1 - oldVerts)).foldl
      (fun s j => s.set (acc.1.getD i 0)
        (writeAt (s.getD (acc.1.getD i 0) []) j (none : W))) acc.2)
  else
    (acc.1 ++ [acc.2.length], acc.2 ++ [List.replicate (greater + 1) (none : W)])

/-- The growth branch of `setEdge`: loop `i = 0 .. greaterIndex` over
`growStep`, then set `vertices := greaterIndex + 1`. -/
def grow (st : St) (greater : Nat) : St :=
  let res := (List.range (greater + 1)).foldl (growStep st.vertices greater)
    (st.rowIds, st.store)
  ⟨greater + 1, res.1, res.2⟩

/-- Write `adjacencyMatrix[source][destination] = v`. -/
def writeCell (st : St) (source destination : Nat) (v : W) : St :=
  let rid := st.rowIds.getD source 0
  ⟨st.vertices, st.rowIds, st.store.set rid (writeAt (st.store.getD rid []) destination v)⟩

/-- `setEdge(source, destination, weight?)`: grow when
`lastIndex < source || lastIndex < destination`, then store `weight ?? 0`. -/
def setEdge (st : St) (source destination : Nat) (weight : Option Int) : St :=
  let st1 := if st.vertices ≤ source ∨ st.vertices ≤ destination then
      grow st (max source destination)
    else st
  writeCell st1 source destination (some (weight.getD 0))

/-- `weight(source, destination)`: bounds check, then read the cell (an
`Infinity` cell reads back as `none`). -/
def weight (st : St) (source destination : Nat) : Except String W :=
  if st.vertices ≤ source ∨ st.vertices ≤ destination then
    .error "Out of graph bound"
  else .ok ((row st source).getD destination (none : W))

/-- `neighbors(vertex)`: indices of the non-`Infinity` cells of the row, in
ascending order. -/
def neighbors (st : St) (vertex : Nat) : Except String (List Nat) :=
  if st.vertices ≤ vertex then .error "Out of graph bound"
  else .ok ((List.range (row st vertex).length).filter
    (fun i => ((row st vertex).getD i (none : W)).isSome))

end AdjacencyMatrix

namespace EdgeList

/-- `Edge`: record with `source`, `destination` and a weight defaulting to
`Edge.DEFAULT_WEIGHT = 1` (the setter stores `value ?? 1`). -/
structure Edge where
  source : Nat
  destination : Nat
  weight : Int
deriving DecidableEq, Repr

/-- `Edge.DEFAULT_WEIGHT`. -/
def DEFAULT_WEIGHT : Int := 1

/-- `new Edge(source, destination, weight?)`. -/
def mkEdge (source destination : Nat) (weight : Option Int) : Edge :=
  ⟨source, destination, weight.getD DEFAULT_WEIGHT⟩

/-- `EdgeList_GraphStorage`. -/
structure St where
  vertices : Nat
  edges : List Edge
deriving DecidableEq, Repr

/-- `constructor(size?)`. -/
def init (size : Option Nat) : St := ⟨size.getD 0, []⟩

/-- `constructor()` with no argument. -/
def empty : St := init none

/-- `setVertex(vertex)`: push a self-loop placeholder `new Edge(v, v, 0)` when
no `v → v` edge exists, then grow `vertices`. -/
def setVertex (st : St) (vertex : Nat) : St :=
  let edges1 :=
    if st.edges.any (fun e => e.source = vertex && e.destination = vertex) then st.edges
    else st.edges ++ [mkEdge vertex vertex (some 0)]
  ⟨max st.vertices (vertex + 1), edges1⟩

/-- Update the first `source → destination` edge with `weight ?? 1` (the
`weight` setter), else push a new edge at the end — the
`findIndex`/update-or-`push` body of `setEdge`. -/
def setEdgeWeight (es : List Edge) (source destination : Nat) (weight : Option Int) :
    List Edge :=
  match es with
  | [] => [mkEdge source destination weight]
  | e :: rest =>
    if e.source = source ∧ e.destination = destination then
      ⟨source, destination, weight.getD DEFAULT_WEIGHT⟩ :: rest
    else e :: setEdgeWeight rest source destination weight

/-- `setEdge(source, destination, weight?)`: `setVertex` both endpoints, then
update-or-push the edge record, then grow `vertices`. -/
def setEdge (st : St) (source destination : Nat) (weight : Option Int) : St :=
  let st1 := setVertex st source
  let st2 := setVertex st1 destination
  let edges3 := setEdgeWeight st2.edges source destination weight
  ⟨max st2.vertices (max (source + 1) (destination + 1)), edges3⟩

/-- `weight(source, destination)`: bounds check, then the weight of the first
matching edge record, `Infinity` when there is none. -/
def weight (st : St) (source destination : Nat) : Except String W :=
  if st.vertices ≤ source ∨ st.vertices ≤ destination then
    .error "Out of graph bound"
  else
    match st.edges.find? (fun e => e.source = source && e.destination = destination) with
    | none => .ok none
    | some e => .ok (some e.weight)

/-- `neighbors(vertex)`: destinations of the edges whose source is `vertex`,
in insertion order. -/
def neighbors (st : St) (vertex : Nat) : Except String (List Nat) :=
  if st.vertices ≤ vertex then .error "Out of graph bound"
  else .ok (st.edges.filterMap
    (fun e => if e.source = vertex then some e.destination else none))

end EdgeList

/-- A `setEdge` call: `(source, destination, optional weight)`. -/
abbrev EdgeOp := Nat × Nat × Option Int

/-- Run a sequence of `setEdge` calls on an empty `AdjacencyList` storage. -/
def runAdj (ops : List EdgeOp) : AdjacencyList.St :=
  ops.foldl (fun st op => AdjacencyList.setEdge st op.1 op.2.1 op.2.2) AdjacencyList.empty

/-- Run a sequence of `setEdge` calls on an empty `AdjacencyMatrix` storage. -/
def runMat (ops : List EdgeOp) : AdjacencyMatrix.St :=
  ops.foldl (fun st op => AdjacencyMatrix.setEdge st op.1 op.2.1 op.2.2) AdjacencyMatrix.empty

/-- Run a sequence of `setEdge` calls on an empty `EdgeList` storage. -/
def runEdg (ops : List EdgeOp) : EdgeList.St :=
  ops.foldl (fun st op => EdgeList.setEdge st op.1 op.2.1 op.2.2) EdgeList.empty

namespace DAryHeap

/-!
`DAryHeap<T>` from the heap source file.  The element type is a parameter `α`
and the injected comparator `cmp : α → α → Int` is threaded through every
operation (`this.lessThanCompare`).  The heap array is a `List α`;
`l[i]?` is `this.heap[i]`, with `none` for a JS out-of-bounds `undefined`.
The branching factor `d` is a `Nat`; the embedding covers `d ≥ 1` (with
`d = 0` the source computes `NaN`/`Infinity` parent indices, a degenerate
regime no claim depends on, except for the constructor which never reads
them). -/

/-- `defaultLessThanCompare = (a, b) => b - a`. -/
def defaultLessThanCompare (a b : Int) : Int := b - a

/-- `isLessThan(a, b)`: `lessThanCompare(a, b) > 0`.  The source first throws
`'Invalid inputs'` if either argument is `undefined`; call sites where that
can happen are modelled with explicit `get?` checks. -/
def isLessThan {α : Type} (cmp : α → α → Int) (a b : α) : Bool := cmp a b > 0

/-- `parentIndex(index) = floor((index - 1) / d)`.  Used only with
`index ≥ 1` and `d ≥ 1`, where `Nat` division agrees with JS `Math.floor`. -/
def parentIndex (d index : Nat) : Nat := (index - 1) / d

/-- `childIndices(index)`: the indices `d*index + 1 .. d*index + d` that are
`< size`, in ascending order. -/
def childIndices (d size index : Nat) : List Nat :=
  (List.range d).filterMap fun k =>
    if d * index + (k + 1) < size then some (d * index + (k + 1)) else none

theorem childIndices_mem {d size index c : Nat} (h : c ∈ childIndices d size index) :
    index < c ∧ c < size ∧ ∃ k, 1 ≤ k ∧ k ≤ d ∧ c = d * index + k := by
  unfold childIndices at h
  simp only [List.mem_filterMap, List.mem_range] at h
  obtain ⟨k, hk, hc⟩ := h
  have hmul : index ≤ d * index := Nat.le_mul_of_pos_left index (by omega)
  by_cases hlt : d * index + (k + 1) < size
  · simp only [hlt, if_pos, Option.some.injEq] at hc
    subst hc
    refine ⟨by omega, hlt, k + 1, by omega, by omega, rfl⟩
  · simp [hlt] at hc

theorem childIndices_complete {d size index k : Nat} (h1 : 1 ≤ k) (h2 : k ≤ d)
    (h3 : d * index + k < size) : d * index + k ∈ childIndices d size index := by
  unfold childIndices
  simp only [List.mem_filterMap, List.mem_range]
  exact ⟨k - 1, by omega, by rw [show k - 1 + 1 = k by omega]; simp [h3]⟩

/-- A fold whose step always returns one of its two arguments lands in
`init :: xs`. -/
theorem foldl_choice_mem {f : Nat → Nat → Nat}
    (hf : ∀ a b, f a b = a ∨ f a b = b) :
    ∀ (xs : List Nat) (init : Nat), xs.foldl f init ∈ init :: xs := by
  intro xs
  induction xs with
  | nil => intro init; simp
  | cons x xs ih =>
    intro init
    rw [List.foldl_cons]
    have h2 := ih (f init x)
    rcases List.mem_cons.mp h2 with h3 | h3
    · rcases hf init x with h4 | h4
      · rw [h3, h4]; exact List.mem_cons_self _ _
      · rw [h3, h4]; exact List.mem_cons.mpr (Or.inr (List.mem_cons_self _ _))
    · exact List.mem_cons.mpr (Or.inr (List.mem_cons.mpr (Or.inr h3)))

/-- `swap(source, destination)`: the destructuring swap of two array cells.
Every `swap` the source performs is within bounds. -/
def swap {α : Type} (l : List α) (i j : Nat) : List α :=
  match l[i]?, l[j]? with
  | some a, some b => (l.set i b).set j a
  | _, _ => l

theorem swap_length {α : Type} (l : List α) (i j : Nat) :
    (swap l i j).length = l.length := by
  unfold swap
  cases l[i]? <;> cases l[j]? <;> simp

/-- `swimUp(index)`: recursively swap with the parent while
`isLessThan(value, parentValue)`.  Reading `undefined` (an out-of-bounds
index) makes `isLessThan` throw `'Invalid inputs'`.  Returns the final index
of the moved element.  The structural `fuel` only bounds the recursion depth
(the current index strictly decreases, so `fuel = index` is exact); `swimUp`
below instantiates it and `swimUp_eq` recovers the source's recursion. -/
def swimUpGo {α : Type} (cmp : α → α → Int) (d : Nat) :
    Nat → List α → Nat → Except String (List α × Nat)
  | _, l, 0 => .ok (l, 0)
  | 0, l, index => .ok (l, index)
  | fuel + 1, l, index =>
    match l[index]?, l[parentIndex d index]? with
    | some value, some parentValue =>
      if isLessThan cmp value parentValue then
        swimUpGo cmp d fuel (swap l index (parentIndex d index)) (parentIndex d index)
      else .ok (l, index)
    | _, _ => .error "Invalid inputs"

/-- `swimUp(index)` proper. -/
def swimUp {α : Type} (cmp : α → α → Int) (d : Nat) (l : List α) (index : Nat) :
    Except String (List α × Nat) :=
  swimUpGo cmp d index l index

theorem parentIndex_le {d index : Nat} : parentIndex d index ≤ index - 1 :=
  Nat.div_le_self _ _

theorem swimUpGo_irrel {α : Type} (cmp : α → α → Int) (d : Nat) :
    ∀ (f₁ f₂ : Nat) (l : List α) (index : Nat), index ≤ f₁ → index ≤ f₂ →
      swimUpGo cmp d f₁ l index = swimUpGo cmp d f₂ l index := by
  intro f₁
  induction f₁ with
  | zero =>
    intro f₂ l index h1 _
    interval_cases index
    cases f₂ <;> rfl
  | succ f ih =>
    intro f₂ l index h1 h2
    match index, f₂ with
    | 0, f₂ => cases f₂ <;> rfl
    | i + 1, g + 1 =>
      show (match l[i + 1]?, l[parentIndex d (i + 1)]? with
        | some value, some parentValue =>
          if isLessThan cmp value parentValue then
            swimUpGo cmp d f (swap l (i + 1) (parentIndex d (i + 1))) (parentIndex d (i + 1))
          else .ok (l, i + 1)
        | _, _ => .error "Invalid inputs")
        = (match l[i + 1]?, l[parentIndex d (i + 1)]? with
        | some value, some parentValue =>
          if isLessThan cmp value parentValue then
            swimUpGo cmp d g (swap l (i + 1) (parentIndex d (i + 1))) (parentIndex d (i + 1))
          else .ok (l, i + 1)
        | _, _ => .error "Invalid inputs")
      cases l[i + 1]? <;> cases l[parentIndex d (i + 1)]? <;> try rfl
      rename_i value parentValue
      show (if isLessThan cmp value parentValue = true then _ else _)
        = (if isLessThan cmp value parentValue = true then _ else _)
      by_cases hlt : isLessThan cmp value parentValue = true
      · rw [if_pos hlt, if_pos hlt]
        exact ih g _ _ (by have := @parentIndex_le d (i + 1); omega)
          (by have := @parentIndex_le d (i + 1); omega)
      · rw [if_neg hlt, if_neg hlt]

/-- The recursion of the source `swimUp`, recovered as an equation. -/
theorem swimUp_eq {α : Type} (cmp : α → α → Int) (d : Nat) (l : List α)
    (index : Nat) :
    swimUp cmp d l index =
      if index = 0 then .ok (l, index)
      else
        match l[index]?, l[parentIndex d index]? with
        | some value, some parentValue =>
          if isLessThan cmp value parentValue then
            swimUp cmp d (swap l index (parentIndex d index)) (parentIndex d index)
          else .ok (l, index)
        | _, _ => .error "Invalid inputs" := by
  match index with
  | 0 => rfl
  | i + 1 =>
    rw [if_neg (by omega)]
    show (match l[i + 1]?, l[parentIndex d (i + 1)]? with
      | some value, some parentValue =>
        if isLessThan cmp value parentValue then
          swimUpGo cmp d i (swap l (i + 1) (parentIndex d (i + 1))) (parentIndex d (i + 1))
        else .ok (l, i + 1)
      | _, _ => .error "Invalid inputs")
      = (match l[i + 1]?, l[parentIndex d (i + 1)]? with
      | some value, some parentValue =>
        if isLessThan cmp value parentValue then
          swimUpGo cmp d (parentIndex d (i + 1))
            (swap l (i + 1) (parentIndex d (i + 1))) (parentIndex d (i + 1))
        else .ok (l, i + 1)
      | _, _ => .error "Invalid inputs")
    cases l[i + 1]? <;> cases l[parentIndex d (i + 1)]? <;> try rfl
    rename_i value parentValue
    show (if isLessThan cmp value parentValue = true then _ else _)
      = (if isLessThan cmp value parentValue = true then _ else _)
    by_cases hlt : isLessThan cmp value parentValue = true
    · rw [if_pos hlt, if_pos hlt]
      exact swimUpGo_irrel cmp d i _ _ _ (by have := @parentIndex_le d (i + 1); omega)
        (le_refl _)
    · rw [if_neg hlt, if_neg hlt]

/-- One step of the `reduce` in `sinkDown` that finds the comparator-least
child: keep the running index `mi` unless the candidate `ci` is strictly
`isLessThan` it. -/
def minChildStep {α : Type} (cmp : α → α → Int) (l : List α) (mi ci : Nat) : Nat :=
  match l[ci]?, l[mi]? with
  | some cv, some mv => if isLessThan cmp cv mv then ci else mi
  | _, _ => mi

theorem minChildStep_choice {α : Type} (cmp : α → α → Int) (l : List α)
    (mi ci : Nat) : minChildStep cmp l mi ci = mi ∨ minChildStep cmp l mi ci = ci := by
  unfold minChildStep
  cases l[ci]? <;> cases l[mi]?
  · exact Or.inl rfl
  · exact Or.inl rfl
  · exact Or.inl rfl
  · rename_i cv mv
    show (if isLessThan cmp cv mv = true then ci else mi) = mi ∨
      (if isLessThan cmp cv mv = true then ci else mi) = ci
    by_cases h : isLessThan cmp cv mv = true
    · rw [if_pos h]; exact Or.inr rfl
    · rw [if_neg h]; exact Or.inl rfl

/-- The `reduce(..., childIndices[0])` of `sinkDown`. -/
def minChild {α : Type} (cmp : α → α → Int) (l : List α) (cs : List Nat)
    (c₀ : Nat) : Nat :=
  cs.foldl (minChildStep cmp l) c₀

theorem minChild_mem {α : Type} (cmp : α → α → Int) (l : List α) (cs : List Nat)
    (c₀ : Nat) : minChild cmp l cs c₀ ∈ c₀ :: cs :=
  foldl_choice_mem (minChildStep_choice cmp l) cs c₀

/-- `sinkDown(index)`: pick the comparator-least in-bounds child via the
`reduce` (`minChild`), stop if the current value is `isLessThan` it, else swap
and recurse.  Returns the final index.  (All reads are in bounds: children are
`< size` by construction, and a node with children is itself `< size`.)  As
with `swimUpGo`, the structural `fuel` only bounds the recursion depth: the
index strictly increases below the fixed length, so `l.length - index` fuel is
exact; `sinkDown` instantiates it and `sinkDown_eq` recovers the source
recursion. -/
def sinkDownGo {α : Type} (cmp : α → α → Int) (d : Nat) (fuel : Nat)
    (l : List α) (index : Nat) : List α × Nat :=
  match childIndices d l.length index with
    | [] => (l, index)
    | c₀ :: rest =>
      match l[index]?, l[minChild cmp l (c₀ :: rest) c₀]? with
      | some v, some mv =>
        if isLessThan cmp v mv then (l, index)
        else
          match fuel with
          | 0 => (l, index)
          | fuel' + 1 =>
            sinkDownGo cmp d fuel' (swap l index (minChild cmp l (c₀ :: rest) c₀))
              (minChild cmp l (c₀ :: rest) c₀)
      | _, _ => (l, index)

/-- `sinkDown(index)` proper. -/
def sinkDown {α : Type} (cmp : α → α → Int) (d : Nat) (l : List α) (index : Nat) :
    List α × Nat :=
  sinkDownGo cmp d (l.length - index) l index

theorem childIndices_empty {α : Type} {d index : Nat} (l : List α)
    (h : l.length ≤ index) : childIndices d l.length index = [] := by
  rw [List.eq_nil_iff_forall_not_mem]
  intro c hc
  have := childIndices_mem hc
  omega

theorem minChild_mem_childIndices {α : Type} (cmp : α → α → Int) (l : List α)
    {d index c₀ : Nat} {rest : List Nat}
    (hc : childIndices d l.length index = c₀ :: rest) :
    minChild cmp l (c₀ :: rest) c₀ ∈ childIndices d l.length index := by
  rw [hc]
  rcases List.mem_cons.mp (minChild_mem cmp l (c₀ :: rest) c₀) with h | h
  · rw [h]; exact List.mem_cons_self _ _
  · exact h

theorem sinkDownGo_irrel {α : Type} (cmp : α → α → Int) (d : Nat) :
    ∀ (f₁ f₂ : Nat) (l : List α) (index : Nat),
      l.length - index ≤ f₁ → l.length - index ≤ f₂ →
      sinkDownGo cmp d f₁ l index = sinkDownGo cmp d f₂ l index := by
  intro f₁
  induction f₁ with
  | zero =>
    intro f₂ l index h1 _
    have hempty : childIndices d l.length index = [] := childIndices_empty l (by omega)
    rw [sinkDownGo.eq_def, sinkDownGo.eq_def, hempty]
  | succ f ih =>
    intro f₂ l index h1 h2
    cases hcs : childIndices d l.length index with
    | nil => rw [sinkDownGo.eq_def, sinkDownGo.eq_def, hcs]
    | cons c₀ rest =>
      have hb := childIndices_mem (minChild_mem_childIndices cmp l hcs)
      cases f₂ with
      | zero =>
        exact absurd hcs (by rw [childIndices_empty l (by omega)]; intro h; cases h)
      | succ g =>
        rw [sinkDownGo.eq_def, sinkDownGo.eq_def, hcs]
        show (match l[index]?, l[minChild cmp l (c₀ :: rest) c₀]? with
          | some v, some mv =>
            if isLessThan cmp v mv = true then (l, index)
            else sinkDownGo cmp d f (swap l index (minChild cmp l (c₀ :: rest) c₀))
              (minChild cmp l (c₀ :: rest) c₀)
          | _, _ => (l, index))
          = (match l[index]?, l[minChild cmp l (c₀ :: rest) c₀]? with
          | some v, some mv =>
            if isLessThan cmp v mv = true then (l, index)
            else sinkDownGo cmp d g (swap l index (minChild cmp l (c₀ :: rest) c₀))
              (minChild cmp l (c₀ :: rest) c₀)
          | _, _ => (l, index))
        rcases l[index]? with _ | v <;>
          rcases l[minChild cmp l (c₀ :: rest) c₀]? with _ | mv <;> try rfl
        show (if isLessThan cmp v mv = true then _ else _)
          = (if isLessThan cmp v mv = true then _ else _)
        by_cases hlt : isLessThan cmp v mv = true
        · rw [if_pos hlt, if_pos hlt]
        · rw [if_neg hlt, if_neg hlt]
          apply ih
          · rw [swap_length]; omega
          · rw [swap_length]; omega

/-- The recursion of the source `sinkDown`, recovered as an equation. -/
theorem sinkDown_eq {α : Type} (cmp : α → α → Int) (d : Nat) (l : List α)
    (index : Nat) :
    sinkDown cmp d l index =
      match childIndices d l.length index with
      | [] => (l, index)
      | c₀ :: rest =>
        match l[index]?, l[minChild cmp l (c₀ :: rest) c₀]? with
        | some v, some mv =>
          if isLessThan cmp v mv then (l, index)
          else sinkDown cmp d (swap l index (minChild cmp l (c₀ :: rest) c₀))
            (minChild cmp l (c₀ :: rest) c₀)
        | _, _ => (l, index)
    := by
  cases hcs : childIndices d l.length index with
  | nil =>
    show sinkDownGo cmp d (l.length - index) l index = (l, index)
    rw [sinkDownGo.eq_def, hcs]
  | cons c₀ rest =>
    have hb := childIndices_mem (minChild_mem_childIndices cmp l hcs)
    obtain ⟨t, ht⟩ : ∃ t, l.length - index = t + 1 := ⟨l.length - index - 1, by omega⟩
    show sinkDownGo cmp d (l.length - index) l index = _
    rw [ht, sinkDownGo.eq_def, hcs]
    show (match l[index]?, l[minChild cmp l (c₀ :: rest) c₀]? with
      | some v, some mv =>
        if isLessThan cmp v mv = true then (l, index)
        else sinkDownGo cmp d t (swap l index (minChild cmp l (c₀ :: rest) c₀))
          (minChild cmp l (c₀ :: rest) c₀)
      | _, _ => (l, index))
      = (match l[index]?, l[minChild cmp l (c₀ :: rest) c₀]? with
      | some v, some mv =>
        if isLessThan cmp v mv = true then (l, index)
        else sinkDown cmp d (swap l index (minChild cmp l (c₀ :: rest) c₀))
          (minChild cmp l (c₀ :: rest) c₀)
      | _, _ => (l, index))
    rcases l[index]? with _ | v <;>
      rcases l[minChild cmp l (c₀ :: rest) c₀]? with _ | mv <;> try rfl
    show (if isLessThan cmp v mv = true then _ else _)
      = (if isLessThan cmp v mv = true then _ else _)
    by_cases hlt : isLessThan cmp v mv = true
    · rw [if_pos hlt, if_pos hlt]
    · rw [if_neg hlt, if_neg hlt]
      show sinkDownGo cmp d t _ _ = sinkDownGo cmp d _ _ _
      apply sinkDownGo_irrel
      · rw [swap_length]; omega
      · rw [swap_length]

/-- `size()`. -/
def size {α : Type} (l : List α) : Nat := l.length

/-- `insert(value)`: push at the end, then swim up; returns the heap and the
final resting index.  (`insert` never throws: the pushed index is in
bounds — `insert_ok` below.) -/
def insert {α : Type} (cmp : α → α → Int) (d : Nat) (l : List α) (value : α) :
    Except String (List α × Nat) :=
  swimUp cmp d (l ++ [value]) ((l ++ [value]).length - 1)

/-- `peek()`: `heap[0]`. -/
def peek {α : Type} (l : List α) : Option α := l.head?

/-- `poll()`: `undefined` on an empty heap; otherwise swap root and last
element, pop the last (the original root), sink the new root down. -/
def poll {α : Type} (cmp : α → α → Int) (d : Nat) (l : List α) :
    Option α × List α :=
  if l.length = 0 then (none, l)
  else
    ((swap l 0 (l.length - 1)).getLast?,
      (sinkDown cmp d (swap l 0 (l.length - 1)).dropLast 0).1)

/-- `removeAtIndex(index)`: swap with the last element, pop, then swim up and
sink down from `index`.  The first component records a thrown error; the
second is the heap array at that moment (the pop has already happened when
`swimUp` throws). -/
def removeAtIndex {α : Type} (cmp : α → α → Int) (d : Nat) (l : List α)
    (index : Nat) : Option String × List α :=
  match swimUp cmp d ((swap l index (l.length - 1)).dropLast) index with
  | .error e => (some e, (swap l index (l.length - 1)).dropLast)
  | .ok (l3, _) => (none, (sinkDown cmp d l3 index).1)

/-- The body of the `heapify` loop: `sinkDown(i)` for `i` from the last
non-leaf index down to `0`. -/
def heapifyGo {α : Type} (cmp : α → α → Int) (d : Nat) : Nat → List α → List α
  | 0, l => (sinkDown cmp d l 0).1
  | i + 1, l => heapifyGo cmp d i (sinkDown cmp d l (i + 1)).1

/-- `heapify(values)`: replace the heap with `values` and sink down every
index from `parentIndex(size - 1)` to `0`.  For `size ≤ 1` the JS start index
is negative and the loop body never runs. -/
def heapify {α : Type} (cmp : α → α → Int) (d : Nat) (values : List α) : List α :=
  if values.length ≤ 1 then values
  else heapifyGo cmp d (parentIndex d (values.length - 1)) values

/-- The constructor, for the overloads without an initial value array: stores
`d` (and the comparator) with **no validation** — the body contains no
`throw`, so construction always succeeds.  The `Except` layer records the
absence of any reported error. -/
def construct (d : Int) : Except String (Int × List Int) := .ok (d, [])

/-- A heap API call, for quantifying over call sequences. -/
inductive Op (α : Type) where
  | insert (value : α)
  | poll
  | removeAt (index : Nat)
  | heapify (values : List α)

/-- One successful call: `none` when the call would throw.  (`removeAt` with
`index ≥ size` throws `'Invalid inputs'` inside `swimUp` in the source for
`size ≥ 1`; the degenerate success `removeAtIndex(0)` on an empty heap is kept,
matching the source, which leaves the heap empty.) -/
def step {α : Type} (cmp : α → α → Int) (d : Nat) (l : List α) :
    Op α → Option (List α)
  | .insert v =>
    match insert cmp d l v with
    | .ok (l1, _) => some l1
    | .error _ => none
  | .poll => some (poll cmp d l).2
  | .removeAt i =>
    if i < l.length ∨ (i = 0 ∧ l.length = 0) then
      match removeAtIndex cmp d l i with
      | (none, l1) => some l1
      | (some _, _) => none
    else none
  | .heapify vs => some (heapify cmp d vs)

/-- Run a sequence of calls from the empty heap of the no-values constructor;
`none` as soon as one call throws. -/
def runOps {α : Type} (cmp : α → α → Int) (d : Nat) (ops : List (Op α)) :
    Option (List α) :=
  ops.foldl (fun acc op => acc.bind (fun l => step cmp d l op)) (some [])

/-- Fold of `insert` calls (ignoring the returned index; `insert` never
throws, see `insert_ok`). -/
def insertAll {α : Type} (cmp : α → α → Int) (d : Nat) (l : List α)
    (values : List α) : List α :=
  values.foldl (fun acc v =>
    match insert cmp d acc v with
    | .ok (l1, _) => l1
    | .error _ => acc) l

/-- The values returned by `n` successive `poll()` calls. -/
def drain {α : Type} (cmp : α → α → Int) (d : Nat) : Nat → List α → List α
  | 0, _ => []
  | n + 1, l =>
    match poll cmp d l with
    | (some v, l1) => v :: drain cmp d n l1
    | (none, _) => []

end DAryHeap

namespace IPQ

/-!
`IndexedPriorityQueue<V>` and the `BinaryHeap` it wraps.  The
`IndexedPriorityQueue` class itself is in the given sources; the `BinaryHeap`
class (file `binary-heap.deprecated.class`) is not, so it is modelled from the
spec.  Entries are `(value, priority)` pairs with `Nat` values; the queue's
comparator is `compare = (a, b) => b[1] - a[1]`. -/

/-- A heap entry `[value, priority]`. -/
abbrev Entry := Nat × Int

/-- Modelled from the spec: the ordering the `BinaryHeap` maintains with the
queue's `compare = (a, b) => b[1] - a[1]` — "the element considered greatest
by the comparator sits at the root", i.e. a max-heap by priority; `outranks`
is the strict comparison sink-down and swim-up use. -/
def outranks (a b : Entry) : Bool := b.2 < a.2

/-- Modelled from the spec: `BinaryHeap` swim-up (`d = 2`) — swap with the
parent while the entry outranks it; returns the final index.  Structural
`fuel` as in `swimUpGo` (`fuel = index` is exact). -/
def bhSwimGo : Nat → List Entry → Nat → List Entry × Nat
  | _, l, 0 => (l, 0)
  | 0, l, index => (l, index)
  | fuel + 1, l, index =>
    let pi := (index - 1) / 2
    match l[index]?, l[pi]? with
    | some value, some parentValue =>
      if outranks value parentValue then
        bhSwimGo fuel (DAryHeap.swap l index pi) pi
      else (l, index)
    | _, _ => (l, index)

/-- Modelled from the spec: `BinaryHeap.insert(value) -> index`: append, swim
up, return the final resting index. -/
def bhInsert (l : List Entry) (value : Entry) : List Entry × Nat :=
  bhSwimGo ((l ++ [value]).length - 1) (l ++ [value]) ((l ++ [value]).length - 1)

/-- Modelled from the spec: `BinaryHeap` sink-down (`d = 2`) — swap with the
highest-ranked child while that child outranks the entry; returns the final
index.  Structural `fuel` as in `sinkDownGo`. -/
def bhSinkGo : Nat → List Entry → Nat → List Entry × Nat
  | fuel, l, index =>
    let c1 := 2 * index + 1
    let c2 := 2 * index + 2
    if c1 < l.length then
      let m := if c2 < l.length then
          match l[c1]?, l[c2]? with
          | some v1, some v2 => if outranks v2 v1 then c2 else c1
          | _, _ => c1
        else c1
      match l[index]?, l[m]? with
      | some v, some mv =>
        if outranks mv v then
          match fuel with
          | 0 => (l, index)
          | fuel' + 1 => bhSinkGo fuel' (DAryHeap.swap l index m) m
        else (l, index)
      | _, _ => (l, index)
    else (l, index)

/-- Modelled from the spec: `BinaryHeap.poll()`: `undefined` on an empty
heap; else swap root and last, pop, sink the new root down; returns the
original root. -/
def bhPoll (l : List Entry) : Option Entry × List Entry :=
  if l.length = 0 then (none, l)
  else
    let l1 := DAryHeap.swap l 0 (l.length - 1)
    (l1.getLast?, (bhSinkGo l1.dropLast.length l1.dropLast 0).1)

/-- Modelled from the spec: `BinaryHeap.updateAt(index, value) -> newIndex`:
replace the entry at `index` in place, reposition it (swim up, then sink down
if it did not move), and report the index it ends at. -/
def bhUpdateAt (l : List Entry) (index : Nat) (value : Entry) :
    List Entry × Nat :=
  let l1 := l.set index value
  let (l2, i2) := bhSwimGo index l1 index
  if i2 = index then bhSinkGo l2.length l2 i2 else (l2, i2)

/-- `IndexedPriorityQueue`: the wrapped heap plus the value → heap-index map
`hash`. -/
structure St where
  heap : List Entry
  hash : List (Nat × Nat)
deriving DecidableEq, Repr

/-- `constructor()`. -/
def empty : St := ⟨[], []⟩

/-- `size()`. -/
def size (st : St) : Nat := st.heap.length

/-- `findIndex(value)`: the map entry if present (and `> -1`), else `-1`. -/
def findIndex (st : St) (value : Nat) : Int :=
  match mapGet st.hash value with
  | some i => (i : Int)
  | none => -1

/-- `enqueue(value, priority)`: in-place `updateAt` when the value is already
tracked, else a fresh `insert`; either way record the index the heap
reports. -/
def enqueue (st : St) (value : Nat) (priority : Int) : St :=
  match mapGet st.hash value with
  | some i =>
    ⟨(bhUpdateAt st.heap i (value, priority)).1,
      mapSet st.hash value (bhUpdateAt st.heap i (value, priority)).2⟩
  | none =>
    ⟨(bhInsert st.heap (value, priority)).1,
      mapSet st.hash value (bhInsert st.heap (value, priority)).2⟩

/-- `dequeue()`: poll the heap; on success delete the polled value from the
map.  Nothing else in the map is touched. -/
def dequeue (st : St) : Option Entry × St :=
  match bhPoll st.heap with
  | (none, l1) => (none, ⟨l1, st.hash⟩)
  | (some item, l1) => (some item, ⟨l1, mapDelete st.hash item.1⟩)

/-- Run a sequence of `enqueue` calls from the empty queue. -/
def runEnq (entries : List (Nat × Int)) : St :=
  entries.foldl (fun st e => enqueue st e.1 e.2) empty

end IPQ

namespace TopSort

/-!
`Dfs_TopSortStrategy.execute` and its recursive helper `topSort`.  The graph
is abstracted by its `size` `n` and `neighbors` function `G` (the only two
members the strategy calls).  `visited` is the boolean array, `order` the
result array (a map from `Int` positions to vertices, `none` = still
`undefined`), `ci` the `currentIndex` counting down from `n - 1`.

The outer loop of `execute` and the neighbour loop of `topSort` have the same
check–mark–recurse shape; `visitChildren`/`visitList` capture it once:
`topSort(v)` is `visitChildren v` followed by `order[ci] = v; ci--`
(`assign`), and `execute` runs `visitList` over `0 .. n-1`.  The structural
`fuel` only bounds the recursion depth: a vertex is visited at most once, so
`n` is always enough fuel (established by `visitList_spec`). -/

/-- The mutable state of `execute`. -/
structure St where
  visited : List Bool
  order : Int → Option Nat
  ci : Int

/-- `visited[v]` (JS `undefined` for an out-of-range read is falsy). -/
def isVisited (st : St) (v : Nat) : Bool := st.visited.getD v false

/-- `visited[v] = true`. -/
def mark (st : St) (v : Nat) : St :=
  { st with visited := st.visited.set v true }

/-- `order[currentIndex] = v; currentIndex - 1`. -/
def assign (st : St) (v : Nat) : St :=
  { st with
    order := fun j => if j = st.ci then some v else st.order j
    ci := st.ci - 1 }

/-- The check–mark–visit loop shared by `execute` (over `0 .. n-1`) and
`topSort` (over `graph.neighbors(vertex)`): skip visited elements, mark the
others and run `visit` on them. -/
def visitFold (visit : Nat → St → St) : List Nat → St → St
  | [], st => st
  | v :: rest, st =>
    if isVisited st v then visitFold visit rest st
    else visitFold visit rest (visit v (mark st v))

/-- `topSort(graph, vertex, visited, order, currentIndex)`: visit all
unvisited neighbours recursively, then `order[currentIndex] = vertex` and
return `currentIndex - 1` (here: `assign`).  The structural `fuel` only
bounds the recursion depth: each nesting level holds a distinct marked
vertex, so `n` is always enough fuel (established in `visitFold_spec`). -/
def visitVertex (G : Nat → List Nat) : Nat → Nat → St → St
  | 0, _, st => st
  | fuel + 1, v, st => assign (visitFold (visitVertex G fuel) (G v) st) v

/-- `execute(graph)`: the returned array, as the list of the `order` entries
at positions `0 .. n-1`. -/
def execute (G : Nat → List Nat) (n : Nat) : List (Option Nat) :=
  let st0 : St := ⟨List.replicate n false, fun _ => none, (n : Int) - 1⟩
  let st := visitFold (visitVertex G n) (List.range n) st0
  (List.range n).map fun i : Nat => st.order (i : Int)

end TopSort


/-! ## Helper lemmas -/

theorem mapGet_mapSet_self {β : Type} (m : List (Nat × β)) (k : Nat) (v : β) :
    mapGet (mapSet m k v) k = some v := by
  induction m with
  | nil => simp [mapGet, mapSet]
  | cons p rest ih =>
    obtain ⟨k₁, v₁⟩ := p
    by_cases h : k₁ = k
    · simp [mapGet, mapSet, h]
    · simp [mapGet, mapSet, h, ih]

theorem mapGet_mapSet_ne {β : Type} (m : List (Nat × β)) {k k₂ : Nat} (v : β)
    (h : k ≠ k₂) : mapGet (mapSet m k v) k₂ = mapGet m k₂ := by
  induction m with
  | nil => simp [mapGet, mapSet, h]
  | cons p rest ih =>
    obtain ⟨k₁, v₁⟩ := p
    by_cases h1 : k₁ = k
    · subst h1; simp [mapGet, mapSet, h]
    · simp only [mapSet, if_neg h1, mapGet]
      by_cases h2 : k₁ = k₂ <;> simp [h2, ih]

theorem getD_set_self {α : Type} (l : List α) {i : Nat} (a dflt : α)
    (h : i < l.length) : (l.set i a).getD i dflt = a := by
  rw [List.getD_eq_getElem?_getD, List.getElem?_set_self h]
  rfl

theorem getD_set_ne {α : Type} (l : List α) {i j : Nat} (a dflt : α)
    (h : i ≠ j) : (l.set i a).getD j dflt = l.getD j dflt := by
  rw [List.getD_eq_getElem?_getD, List.getElem?_set_ne h, ← List.getD_eq_getElem?_getD]

theorem getD_replicate {α : Type} {n m : Nat} (a dflt : α) (h : m < n) :
    (List.replicate n a).getD m dflt = a := by
  rw [List.getD_eq_getElem?_getD, List.getElem?_replicate, if_pos h]
  rfl

/-- `writeAt` puts `v` at position `j`. -/
theorem writeAt_getD_self (arr : List W) (j : Nat) (v : W) :
    (AdjacencyMatrix.writeAt arr j v).getD j none = v := by
  unfold AdjacencyMatrix.writeAt
  by_cases h : j < arr.length
  · rw [if_pos h]; exact getD_set_self arr v none h
  · rw [if_neg h, List.getD_eq_getElem?_getD, List.append_assoc,
      List.getElem?_append_right (by omega : arr.length ≤ j),
      List.getElem?_append_right (by simp only [List.length_replicate]; omega)]
    simp [List.length_replicate]

/-- The minimal well-formedness of an `AdjacencyMatrix` state that `setEdge`
preserves: the row-reference array matches `vertices` and every reference is
a valid store index.  (It says nothing about row contents, so it also covers
the aliased states the sized constructor produces.) -/
structure MatSane (st : AdjacencyMatrix.St) : Prop where
  rlen : st.rowIds.length = st.vertices
  valid : ∀ i, i < st.vertices → st.rowIds.getD i 0 < st.store.length

theorem matSane_empty : MatSane AdjacencyMatrix.empty :=
  ⟨rfl, fun i h => absurd h (by simp [AdjacencyMatrix.empty])⟩

theorem matSane_init (n : Nat) : MatSane (AdjacencyMatrix.init n) := by
  refine ⟨by simp [AdjacencyMatrix.init], fun i h => ?_⟩
  show (List.replicate n 0).getD i 0 < 1
  rw [getD_replicate 0 0 (by simpa [AdjacencyMatrix.init] using h)]
  omega

/-- The growth loop of `setEdge` splits positionally: indices `< vertices`
first (row extension), then the fresh rows. -/
theorem grow_eq_phases (st : AdjacencyMatrix.St) (g : Nat)
    (h : st.vertices ≤ g + 1) :
    AdjacencyMatrix.grow st g =
      ⟨g + 1,
        ((List.range' st.vertices (g + 1 - st.vertices)).foldl
          (AdjacencyMatrix.growStep st.vertices g)
          ((List.range st.vertices).foldl (AdjacencyMatrix.growStep st.vertices g)
            (st.rowIds, st.store))).1,
        ((List.range' st.vertices (g + 1 - st.vertices)).foldl
          (AdjacencyMatrix.growStep st.vertices g)
          ((List.range st.vertices).foldl (AdjacencyMatrix.growStep st.vertices g)
            (st.rowIds, st.store))).2⟩ := by
  unfold AdjacencyMatrix.grow
  have hsplit : List.range (g + 1) =
      List.range st.vertices ++ List.range' st.vertices (g + 1 - st.vertices) := by
    rw [List.range'_eq_map_range]
    rw [show g + 1 = st.vertices + (g + 1 - st.vertices) by omega, List.range_add]
    simp
  rw [hsplit, List.foldl_append]

/-- Repeatedly `set`-ting one store row keeps the store length. -/
theorem storeFold_length (rid : Nat) :
    ∀ (js : List Nat) (store : List (List W)),
      (js.foldl (fun s j => s.set rid
        (AdjacencyMatrix.writeAt (s.getD rid []) j (none : W))) store).length
        = store.length := by
  intro js
  induction js with
  | nil => intro store; rfl
  | cons j rest ih =>
    intro store
    rw [List.foldl_cons, ih, List.length_set]

/-- Phase 1 (range over `i < vertices`) keeps `rowIds` and the store length. -/
theorem growPhase1_shape (oldV g : Nat) :
    ∀ (is : List Nat) (acc : List Nat × List (List W)), (∀ i ∈ is, i < oldV) →
      (is.foldl (AdjacencyMatrix.growStep oldV g) acc).1 = acc.1 ∧
      (is.foldl (AdjacencyMatrix.growStep oldV g) acc).2.length = acc.2.length := by
  intro is
  induction is with
  | nil => intro acc _; exact ⟨rfl, rfl⟩
  | cons i rest ih =>
    intro acc hmem
    have hi : i < oldV := hmem i (List.mem_cons_self _ _)
    rw [List.foldl_cons]
    have hstep : AdjacencyMatrix.growStep oldV g acc i =
        (acc.1, (List.range' oldV (g + 1 - oldV)).foldl
          (fun s j => s.set (acc.1.getD i 0)
            (AdjacencyMatrix.writeAt (s.getD (acc.1.getD i 0) []) j (none : W))) acc.2) := by
      unfold AdjacencyMatrix.growStep
      rw [if_pos hi]
    rw [hstep]
    obtain ⟨h1, h2⟩ := ih _ (fun a ha => hmem a (List.mem_cons_of_mem _ ha))
    refine ⟨h1, ?_⟩
    rw [h2]
    exact storeFold_length _ _ _

/-- Phase 2 (fresh rows for `i ≥ vertices`) appends one reference and one row
per step; every reference stays valid. -/
theorem growPhase2_sane (oldV g : Nat) :
    ∀ (is : List Nat) (acc : List Nat × List (List W)), (∀ i ∈ is, oldV ≤ i) →
      (∀ k, k < acc.1.length → acc.1.getD k 0 < acc.2.length) →
      (is.foldl (AdjacencyMatrix.growStep oldV g) acc).1.length
        = acc.1.length + is.length ∧
      (∀ k, k < (is.foldl (AdjacencyMatrix.growStep oldV g) acc).1.length →
        (is.foldl (AdjacencyMatrix.growStep oldV g) acc).1.getD k 0
          < (is.foldl (AdjacencyMatrix.growStep oldV g) acc).2.length) := by
  intro is
  induction is with
  | nil => intro acc _ hv; exact ⟨rfl, hv⟩
  | cons i rest ih =>
    intro acc hmem hv
    have hi : oldV ≤ i := hmem i (List.mem_cons_self _ _)
    rw [List.foldl_cons]
    have hstep : AdjacencyMatrix.growStep oldV g acc i =
        (acc.1 ++ [acc.2.length], acc.2 ++ [List.replicate (g + 1) (none : W)]) := by
      unfold AdjacencyMatrix.growStep
      rw [if_neg (by omega)]
    rw [hstep]
    have hv2 : ∀ k, k < (acc.1 ++ [acc.2.length]).length →
        (acc.1 ++ [acc.2.length]).getD k 0
          < (acc.2 ++ [List.replicate (g + 1) (none : W)]).length := by
      intro k hk
      rw [List.length_append, List.length_singleton] at hk
      rw [List.getD_eq_getElem?_getD, List.getElem?_append, List.length_append,
        List.length_singleton]
      by_cases hkr : k < acc.1.length
      · rw [if_pos hkr]
        have h5 := hv k hkr
        rw [List.getD_eq_getElem?_getD] at h5
        omega
      · rw [if_neg hkr]
        have hk0 : k - acc.1.length = 0 := by omega
        rw [hk0]
        simp
    obtain ⟨h1, h2⟩ := ih (acc.1 ++ [acc.2.length],
        acc.2 ++ [List.replicate (g + 1) (none : W)])
      (fun a ha => hmem a (List.mem_cons_of_mem _ ha)) hv2
    refine ⟨?_, h2⟩
    rw [h1, List.length_append, List.length_singleton, List.length_cons]
    omega

/-- `grow` preserves `MatSane` and sets `vertices` to `greater + 1`. -/
theorem grow_sane {st : AdjacencyMatrix.St} (hs : MatSane st) {g : Nat}
    (h : st.vertices ≤ g) :
    MatSane (AdjacencyMatrix.grow st g) ∧ (AdjacencyMatrix.grow st g).vertices = g + 1 := by
  rw [grow_eq_phases st g (by omega)]
  have hp1 := growPhase1_shape st.vertices g (List.range st.vertices)
    (st.rowIds, st.store) (fun i hi => List.mem_range.mp hi)
  set acc1 := (List.range st.vertices).foldl (AdjacencyMatrix.growStep st.vertices g)
    (st.rowIds, st.store) with hacc1
  have hv1 : ∀ i, i < acc1.1.length → acc1.1.getD i 0 < acc1.2.length := by
    intro i hi
    rw [hp1.1] at hi ⊢
    rw [hp1.2]
    exact hs.valid i (by rw [← hs.rlen]; exact hi)
  have hp2 := growPhase2_sane st.vertices g (List.range' st.vertices (g + 1 - st.vertices))
    acc1 (fun i hi => by
      rw [List.range'_eq_map_range] at hi
      obtain ⟨x, _, hx⟩ := List.mem_map.mp hi
      omega) hv1
  refine ⟨⟨?_, ?_⟩, rfl⟩
  · show _ = g + 1
    rw [hp2.1, hp1.1]
    simp only [List.length_range']
    rw [hs.rlen]
    omega
  · intro i hi
    apply hp2.2
    rw [hp2.1, hp1.1]
    simp only [List.length_range']
    rw [hs.rlen]
    simp at hi ⊢
    omega

/-- `writeCell` keeps `MatSane` and the written cell reads back. -/
theorem writeCell_sane {st : AdjacencyMatrix.St} (hs : MatSane st)
    {s d : Nat} (hsv : s < st.vertices) (hdv : d < st.vertices) (v : W) :
    MatSane (AdjacencyMatrix.writeCell st s d v) ∧
    s < (AdjacencyMatrix.writeCell st s d v).vertices ∧
    d < (AdjacencyMatrix.writeCell st s d v).vertices ∧
    AdjacencyMatrix.weight (AdjacencyMatrix.writeCell st s d v) s d = .ok v := by
  have hrid : st.rowIds.getD s 0 < st.store.length := hs.valid s hsv
  refine ⟨⟨hs.rlen, fun i hi => ?_⟩, hsv, hdv, ?_⟩
  · show st.rowIds.getD i 0 < (st.store.set _ _).length
    rw [List.length_set]
    exact hs.valid i hi
  · unfold AdjacencyMatrix.weight
    rw [if_neg (by push_neg; exact ⟨hsv, hdv⟩)]
    unfold AdjacencyMatrix.row AdjacencyMatrix.writeCell
    show Except.ok (((st.store.set (st.rowIds.getD s 0)
      (AdjacencyMatrix.writeAt (st.store.getD (st.rowIds.getD s 0) []) d v)).getD
        (st.rowIds.getD s 0) []).getD d none) = .ok v
    rw [getD_set_self _ _ _ hrid, writeAt_getD_self]

/-- `setEdge` preserves `MatSane`, grows `vertices` past both endpoints, and
the stored cell reads back. -/
theorem setEdge_sane {st : AdjacencyMatrix.St} (hs : MatSane st)
    (s d : Nat) (w : Option Int) :
    MatSane (AdjacencyMatrix.setEdge st s d w) ∧
    s < (AdjacencyMatrix.setEdge st s d w).vertices ∧
    d < (AdjacencyMatrix.setEdge st s d w).vertices ∧
    AdjacencyMatrix.weight (AdjacencyMatrix.setEdge st s d w) s d
      = .ok (some (w.getD 0)) := by
  unfold AdjacencyMatrix.setEdge
  by_cases hg : st.vertices ≤ s ∨ st.vertices ≤ d
  · rw [if_pos hg]
    have hle : st.vertices ≤ max s d := by
      rcases hg with h | h
      · exact le_trans h (le_max_left _ _)
      · exact le_trans h (le_max_right _ _)
    obtain ⟨hs1, hv1⟩ := grow_sane hs hle
    have hsv : s < (AdjacencyMatrix.grow st (max s d)).vertices := by rw [hv1]; omega
    have hdv : d < (AdjacencyMatrix.grow st (max s d)).vertices := by rw [hv1]; omega
    exact writeCell_sane hs1 hsv hdv (some (w.getD 0))
  · rw [if_neg hg]
    push_neg at hg
    exact writeCell_sane hs hg.1 hg.2 (some (w.getD 0))


/-- `AdjacencyList.setEdge` stores `weight ?? 0` and it reads back. -/
theorem adjList_setEdge_weight (a : AdjacencyList.St) (s d : Nat) (w : Option Int) :
    AdjacencyList.weight (AdjacencyList.setEdge a s d w) s d = .ok (some (w.getD 0)) := by
  unfold AdjacencyList.weight
  rw [if_neg (by
    have hv : (AdjacencyList.setEdge a s d w).vertices
        = max a.vertices (max (s + 1) (d + 1)) := rfl
    rw [hv]; push_neg; omega)]
  simp only [AdjacencyList.setEdge, mapGet_mapSet_self]

/-- After `setEdgeWeight`, the first `s → d` record holds `weight ?? 1`. -/
theorem edgeList_find_setEdgeWeight (es : List EdgeList.Edge) (s d : Nat) (w : Option Int) :
    (EdgeList.setEdgeWeight es s d w).find? (fun e => e.source = s && e.destination = d)
      = some ⟨s, d, w.getD EdgeList.DEFAULT_WEIGHT⟩ := by
  induction es with
  | nil => simp [EdgeList.setEdgeWeight, EdgeList.mkEdge, List.find?]
  | cons e rest ih =>
    unfold EdgeList.setEdgeWeight
    by_cases h : e.source = s ∧ e.destination = d
    · rw [if_pos h]
      simp [List.find?]
    · rw [if_neg h]
      rw [List.find?_cons]
      have hcond : (e.source = s && e.destination = d) = false := by
        rw [Bool.and_eq_false_iff]
        by_cases h1 : e.source = s
        · right; simp only [decide_eq_false_iff_not]; exact fun h2 => h ⟨h1, h2⟩
        · left; simp only [decide_eq_false_iff_not]; exact h1
      rw [hcond]
      exact ih

/-- `EdgeList.setEdge` stores `weight ?? 1` (the `Edge` default) and it reads
back. -/
theorem edgeList_setEdge_weight (e : EdgeList.St) (s d : Nat) (w : Option Int) :
    EdgeList.weight (EdgeList.setEdge e s d w) s d
      = .ok (some (w.getD EdgeList.DEFAULT_WEIGHT)) := by
  unfold EdgeList.weight
  rw [if_neg (by
    have hv : (EdgeList.setEdge e s d w).vertices
        = max (EdgeList.setVertex (EdgeList.setVertex e s) d).vertices
          (max (s + 1) (d + 1)) := rfl
    rw [hv]; push_neg; omega)]
  have he : (EdgeList.setEdge e s d w).edges
      = EdgeList.setEdgeWeight (EdgeList.setVertex (EdgeList.setVertex e s) d).edges
        s d w := rfl
  rw [he, edgeList_find_setEdgeWeight]

/-! ## The claims -/

/-- C1 (counterexample): the backends do not return identical results for the
same `setEdge` sequence.  After the single call `setEdge(0, 1)` with the
weight omitted, the adjacency-list backend reports weight `0` for `0 → 1`
while the edge-list backend reports `1` (its `Edge.DEFAULT_WEIGHT`), both at
indices below `size() = 2`. -/
theorem C1_counterexample :
    AdjacencyList.weight (runAdj [(0, 1, none)]) 0 1
      ≠ EdgeList.weight (runEdg [(0, 1, none)]) 0 1 := by decide

/-- C2 (counterexample): with `d = 3`, the default comparator and inserts
`5, 3, 8, 1, 9`, `peek()` does not return `9` — the default comparator
`(a, b) => b - a` together with `isLessThan(a,b) = compare(a,b) > 0` makes
the heap a numeric *min*-heap, so the root is `1`. -/
theorem C2_counterexample :
    DAryHeap.peek (DAryHeap.insertAll DAryHeap.defaultLessThanCompare 3 []
      ([5, 3, 8, 1, 9] : List Int)) ≠ some 9 := by decide

/-- C2 (amended): with `d = 3`, the default comparator and inserts
`5, 3, 8, 1, 9`, `peek()` returns `1` and five successive `poll()` calls
return `1, 3, 5, 8, 9` — comparator-ascending, because the default
comparator makes the heap a min-heap. -/
theorem C2_amended :
    DAryHeap.peek (DAryHeap.insertAll DAryHeap.defaultLessThanCompare 3 []
      ([5, 3, 8, 1, 9] : List Int)) = some 1 ∧
    DAryHeap.drain DAryHeap.defaultLessThanCompare 3 5
      (DAryHeap.insertAll DAryHeap.defaultLessThanCompare 3 []
        ([5, 3, 8, 1, 9] : List Int)) = [1, 3, 5, 8, 9] := by decide

/-- C4 (counterexample): after `enqueue(10, 2); enqueue(20, 1); dequeue()`,
the still-tracked value `20` has map entry `1`, but its true position in the
heap array is `0` (position `1` does not even exist) — `dequeue` deletes the
polled value from the map but does not update entries moved by the poll's
internal swap/sink-down. -/
theorem C4_counterexample :
    mapGet (IPQ.dequeue (IPQ.runEnq [(10, 2), (20, 1)])).2.hash 20 = some 1 ∧
    (IPQ.dequeue (IPQ.runEnq [(10, 2), (20, 1)])).2.heap[1]? = none ∧
    (IPQ.dequeue (IPQ.runEnq [(10, 2), (20, 1)])).2.heap[0]? = some (20, 1) := by
  decide

/-- C5 (counterexample): on the edge-list backend, after the single call
`setEdge(0, 1, 5)`, the never-set edge `0 → 0` has weight `0` instead of
`+Infinity` — `setEdge` materialises self-loop placeholder edges through
`setVertex`. -/
theorem C5_counterexample :
    EdgeList.weight (runEdg [(0, 1, some 5)]) 0 0 ≠ .ok none ∧
    EdgeList.weight (runEdg [(0, 1, some 5)]) 0 0 = .ok (some 0) := by decide

/-- C6 (counterexample): on the edge-list backend, `setEdge(0, 1)` with the
weight omitted stores `Edge.DEFAULT_WEIGHT = 1`, not `0`. -/
theorem C6_counterexample :
    EdgeList.weight (EdgeList.setEdge EdgeList.empty 0 1 none) 0 1
      ≠ .ok (some 0) := by decide

/-- C6 (amended): `setEdge` with the weight omitted stores `0` on the
adjacency-list and adjacency-matrix backends (for any sane matrix state),
but the edge-list backend stores `Edge.DEFAULT_WEIGHT = 1`. -/
theorem C6_theorem (a : AdjacencyList.St) (m : AdjacencyMatrix.St)
    (e : EdgeList.St) (s d : Nat) (hm : MatSane m) :
    AdjacencyList.weight (AdjacencyList.setEdge a s d none) s d = .ok (some 0) ∧
    AdjacencyMatrix.weight (AdjacencyMatrix.setEdge m s d none) s d = .ok (some 0) ∧
    EdgeList.weight (EdgeList.setEdge e s d none) s d = .ok (some 1) := by
  refine ⟨adjList_setEdge_weight a s d none, ?_, edgeList_setEdge_weight e s d none⟩
  exact (setEdge_sane hm s d none).2.2.2

/-- C6 (witness). -/
theorem C6_witness :
    AdjacencyList.weight (AdjacencyList.setEdge AdjacencyList.empty 0 1 none) 0 1
      = .ok (some 0) ∧
    AdjacencyMatrix.weight (AdjacencyMatrix.setEdge AdjacencyMatrix.empty 0 1 none) 0 1
      = .ok (some 0) ∧
    EdgeList.weight (EdgeList.setEdge EdgeList.empty 0 1 none) 0 1 = .ok (some 1) :=
  C6_theorem AdjacencyList.empty AdjacencyMatrix.empty EdgeList.empty 0 1 matSane_empty

/-- C8 (counterexample): constructing a `DAryHeap` with branching factor
`d = 0` does not fail — the constructor performs no validation and reports
no error. -/
theorem C8_counterexample : DAryHeap.construct 0 = .ok (0, []) := rfl

/-- C8 (amended): the `DAryHeap` constructor accepts every branching factor,
including `d = 0` and negative values, without reporting any error: its body
contains no validation and no throw. -/
theorem C8_theorem (d : Int) : DAryHeap.construct d = .ok (d, []) := rfl

/-- C9: in a matrix constructed with an initial vertex count `n ≥ 2`, all
rows alias one shared array, so `setEdge(u, v, w)` with `u, v < n` (no
growth) makes `weight(x, v)` return `w` for *every* `x < n`. -/
theorem C9_theorem (n u v x : Nat) (w : Int) (_hn : 2 ≤ n) (hu : u < n)
    (hv : v < n) (hx : x < n) :
    AdjacencyMatrix.weight
      (AdjacencyMatrix.setEdge (AdjacencyMatrix.init n) u v (some w)) x v
      = .ok (some w) := by
  unfold AdjacencyMatrix.setEdge
  rw [if_neg (by push_neg; exact ⟨by simpa [AdjacencyMatrix.init] using hu,
    by simpa [AdjacencyMatrix.init] using hv⟩)]
  unfold AdjacencyMatrix.writeCell AdjacencyMatrix.weight AdjacencyMatrix.row
  rw [if_neg (by push_neg; exact ⟨by simpa [AdjacencyMatrix.init] using hx,
    by simpa [AdjacencyMatrix.init] using hv⟩)]
  show Except.ok ((((AdjacencyMatrix.init n).store.set
    ((AdjacencyMatrix.init n).rowIds.getD u 0)
    (AdjacencyMatrix.writeAt
      ((AdjacencyMatrix.init n).store.getD ((AdjacencyMatrix.init n).rowIds.getD u 0) [])
      v (some ((some w).getD 0)))).getD
        ((AdjacencyMatrix.init n).rowIds.getD x 0) []).getD v none) = .ok (some w)
  have hru : (AdjacencyMatrix.init n).rowIds.getD u 0 = 0 := getD_replicate _ _ hu
  have hrx : (AdjacencyMatrix.init n).rowIds.getD x 0 = 0 := getD_replicate _ _ hx
  rw [hru, hrx]
  rw [getD_set_self _ _ _ (by simp [AdjacencyMatrix.init])]
  exact congrArg Except.ok (writeAt_getD_self _ v _)

/-- C9 (witness): `n = 2`, `setEdge(0, 1, 7)`, then `weight(1, 1) = 7`. -/
theorem C9_witness :
    AdjacencyMatrix.weight
      (AdjacencyMatrix.setEdge (AdjacencyMatrix.init 2) 0 1 (some 7)) 1 1
      = .ok (some 7) :=
  C9_theorem 2 0 1 1 7 (by decide) (by decide) (by decide) (by decide)

/-- C10: on a heap of size `n ≥ 2` (any element type, comparator, and
branching factor `d ≥ 1`), `removeAtIndex(n-1)` throws `'Invalid inputs'`
(the post-pop `swimUp` reads the now-removed cell), and at that moment the
element is already gone: the heap array has length `n - 1`. -/
theorem C10_theorem {α : Type} (cmp : α → α → Int) (d : Nat) (l : List α)
    (_hd : 1 ≤ d) (hn : 2 ≤ l.length) :
    (DAryHeap.removeAtIndex cmp d l (l.length - 1)).1 = some "Invalid inputs" ∧
    (DAryHeap.removeAtIndex cmp d l (l.length - 1)).2.length = l.length - 1 := by
  unfold DAryHeap.removeAtIndex
  have hlen : (DAryHeap.swap l (l.length - 1) (l.length - 1)).dropLast.length
      = l.length - 1 := by
    rw [List.length_dropLast, DAryHeap.swap_length]
  have hge : (DAryHeap.swap l (l.length - 1) (l.length - 1)).dropLast[l.length - 1]?
      = none := by
    rw [List.getElem?_eq_none]
    omega
  have hswim : DAryHeap.swimUp cmp d
      (DAryHeap.swap l (l.length - 1) (l.length - 1)).dropLast (l.length - 1)
      = .error "Invalid inputs" := by
    rw [DAryHeap.swimUp_eq, if_neg (by omega), hge]
  rw [hswim]
  exact ⟨rfl, hlen⟩

/-- C10 (witness): the heap `[1, 2]` with the default comparator and `d = 2`. -/
theorem C10_witness :
    (DAryHeap.removeAtIndex DAryHeap.defaultLessThanCompare 2 ([1, 2] : List Int) 1).1
      = some "Invalid inputs" ∧
    (DAryHeap.removeAtIndex DAryHeap.defaultLessThanCompare 2 ([1, 2] : List Int) 1).2.length
      = 1 :=
  C10_theorem DAryHeap.defaultLessThanCompare 2 [1, 2] (by decide) (by decide)


/-! ## AdjacencyList / AdjacencyMatrix equivalence from an empty storage -/

/-- The weight lookup of the adjacency list, without the bounds guard. -/
def adjLookup (a : AdjacencyList.St) (u v : Nat) : Option Int :=
  match mapGet a.adj u with
  | none => none
  | some inner => mapGet inner v

theorem adjList_weight_inbounds (a : AdjacencyList.St) {u v : Nat}
    (hu : u < a.vertices) (hv : v < a.vertices) :
    AdjacencyList.weight a u v = .ok (adjLookup a u v) := by
  unfold AdjacencyList.weight adjLookup
  rw [if_neg (by omega)]
  cases mapGet a.adj u with
  | none => rfl
  | some inner =>
    show (match mapGet inner v with
      | none => Except.ok none
      | some w => Except.ok (some w)) = Except.ok (mapGet inner v)
    cases mapGet inner v <;> rfl

/-- Updating a just-created empty inner map equals setting directly (both
place the key at the same position). -/
theorem mapSet_mapSet_abs {β : Type} (m : List (Nat × β)) (k : Nat) (x y : β)
    (h : mapGet m k = none) : mapSet (mapSet m k y) k x = mapSet m k x := by
  induction m with
  | nil => simp [mapSet]
  | cons p rest ih =>
    obtain ⟨k₁, v₁⟩ := p
    by_cases h1 : k₁ = k
    · rw [mapGet, if_pos h1] at h
      cases h
    · rw [mapGet, if_neg h1] at h
      rw [mapSet, if_neg h1, mapSet, if_neg h1, mapSet, if_neg h1, ih h]

/-- The net effect of `setEdge` on the outer map: the source first ensures an
inner map exists for `source`, then sets `destination`; together that is one
`set` of the (possibly empty) inner map. -/
theorem setEdge_adj (a : AdjacencyList.St) (s d : Nat) (w : Option Int) :
    (AdjacencyList.setEdge a s d w).adj
      = mapSet a.adj s (mapSet ((mapGet a.adj s).getD []) d (w.getD 0)) := by
  unfold AdjacencyList.setEdge
  cases hout : mapGet a.adj s with
  | none =>
    simp only [hout, mapGet_mapSet_self, Option.getD_some, Option.getD_none]
    exact mapSet_mapSet_abs a.adj s _ _ hout
  | some inner => simp only [hout, Option.getD_some]

theorem adjLookup_setEdge (a : AdjacencyList.St) (s d u v : Nat) (w : Option Int) :
    adjLookup (AdjacencyList.setEdge a s d w) u v
      = if u = s ∧ v = d then some (w.getD 0) else adjLookup a u v := by
  unfold adjLookup
  rw [setEdge_adj]
  by_cases hu : u = s
  · subst hu
    rw [mapGet_mapSet_self]
    show mapGet (mapSet ((mapGet a.adj u).getD []) d (w.getD 0)) v = _
    by_cases hv : v = d
    · subst hv
      rw [mapGet_mapSet_self, if_pos ⟨rfl, rfl⟩]
    · rw [mapGet_mapSet_ne _ _ (fun h => hv h.symm), if_neg (fun h => hv h.2)]
      cases hout : mapGet a.adj u with
      | none => simp [mapGet]
      | some inner => simp
  · rw [mapGet_mapSet_ne _ _ (fun h => hu h.symm), if_neg (fun h => hu h.1)]

theorem adjList_setEdge_vertices (a : AdjacencyList.St) (s d : Nat) (w : Option Int) :
    (AdjacencyList.setEdge a s d w).vertices
      = max a.vertices (max (s + 1) (d + 1)) := rfl

/-- A key is in an association list exactly when its lookup succeeds. -/
theorem mapGet_isSome_iff_mem {β : Type} (m : List (Nat × β)) (k : Nat) :
    mapGet m k ≠ none ↔ k ∈ m.map Prod.fst := by
  induction m with
  | nil => simp [mapGet]
  | cons p rest ih =>
    obtain ⟨k₁, v₁⟩ := p
    by_cases h : k₁ = k
    · subst h; simp [mapGet]
    · simp only [mapGet, if_neg h, List.map_cons, List.mem_cons]
      rw [ih]
      constructor
      · exact fun h2 => Or.inr h2
      · rintro (h2 | h2)
        · exact absurd h2.symm h
        · exact h2

theorem set_getD_self {α : Type} : ∀ (l : List α) (i : Nat) (dflt : α),
    i < l.length → l.set i (l.getD i dflt) = l := by
  intro l
  induction l with
  | nil => intro i dflt h; simp at h
  | cons x xs ih =>
    intro i dflt h
    cases i with
    | zero => rfl
    | succ j =>
      show x :: xs.set j (xs.getD j dflt) = x :: xs
      rw [ih j dflt (by simpa using h)]

/-- Writing `Infinity` into columns `start, start+1, …` of a row of length
`start` just appends that many `Infinity` cells. -/
theorem extendRow_eq : ∀ (cnt start : Nat) (r : List W), r.length = start →
    (List.range' start cnt).foldl
      (fun r j => AdjacencyMatrix.writeAt r j (none : W)) r
      = r ++ List.replicate cnt (none : W) := by
  intro cnt
  induction cnt with
  | zero => intro start r _; simp
  | succ c ih =>
    intro start r hlen
    rw [List.range'_succ, List.foldl_cons]
    have hw : AdjacencyMatrix.writeAt r start (none : W) = r ++ [(none : W)] := by
      unfold AdjacencyMatrix.writeAt
      rw [if_neg (by omega)]
      rw [hlen]
      simp
    rw [hw, ih (start + 1) _ (by simp [hlen])]
    rw [List.append_assoc]
    congr 1

/-- The store-level column loop is the row-level one applied to the single
touched row. -/
theorem storeFold_collapse (rid : Nat) :
    ∀ (js : List Nat) (store : List (List W)), rid < store.length →
      js.foldl (fun s j => s.set rid
        (AdjacencyMatrix.writeAt (s.getD rid []) j (none : W))) store
      = store.set rid (js.foldl
        (fun r j => AdjacencyMatrix.writeAt r j (none : W)) (store.getD rid [])) := by
  intro js
  induction js with
  | nil =>
    intro store h
    exact (set_getD_self store rid [] h).symm
  | cons j rest ih =>
    intro store h
    rw [List.foldl_cons, List.foldl_cons]
    rw [ih _ (by rw [List.length_set]; exact h)]
    rw [List.set_set]
    rw [getD_set_self _ _ _ h]


theorem getD_append_left {α : Type} (l₁ l₂ : List α) {n : Nat} (dflt : α)
    (h : n < l₁.length) : (l₁ ++ l₂).getD n dflt = l₁.getD n dflt := by
  rw [List.getD_eq_getElem?_getD, List.getElem?_append, if_pos h,
    ← List.getD_eq_getElem?_getD]

theorem getD_append_right {α : Type} (l₁ l₂ : List α) {n : Nat} (dflt : α)
    (h : l₁.length ≤ n) : (l₁ ++ l₂).getD n dflt = l₂.getD (n - l₁.length) dflt := by
  rw [List.getD_eq_getElem?_getD, List.getElem?_append_right h,
    ← List.getD_eq_getElem?_getD]

theorem getD_range {n i : Nat} (h : i < n) : (List.range n).getD i 0 = i := by
  rw [List.getD_eq_getElem?_getD, List.getElem?_range h]
  rfl

/-- Phase 1 of the growth loop extends each of the old rows by
`Infinity`-cells up to the new width (stated for distinct row indices whose
references are the identity, i.e. the unaliased from-empty layout). -/
theorem growPhase1_content (oldV g : Nat) :
    ∀ (is : List Nat) (acc : List Nat × List (List W)),
      (∀ i ∈ is, i < oldV) → is.Nodup →
      (∀ i ∈ is, acc.1.getD i 0 = i) →
      (∀ i ∈ is, i < acc.2.length) →
      (∀ i ∈ is, (acc.2.getD i []).length = oldV) →
      (is.foldl (AdjacencyMatrix.growStep oldV g) acc).1 = acc.1 ∧
      (is.foldl (AdjacencyMatrix.growStep oldV g) acc).2.length = acc.2.length ∧
      (∀ u, (is.foldl (AdjacencyMatrix.growStep oldV g) acc).2.getD u []
        = if u ∈ is then acc.2.getD u [] ++ List.replicate (g + 1 - oldV) (none : W)
          else acc.2.getD u []) := by
  intro is
  induction is with
  | nil =>
    intro acc _ _ _ _ _
    exact ⟨rfl, rfl, fun u => by simp⟩
  | cons i rest ih =>
    intro acc hlt hnd hid hveclen hrowlen
    have hi : i < oldV := hlt i (List.mem_cons_self _ _)
    have hidi : acc.1.getD i 0 = i := hid i (List.mem_cons_self _ _)
    have hilen : i < acc.2.length := hveclen i (List.mem_cons_self _ _)
    have hirow : (acc.2.getD i []).length = oldV := hrowlen i (List.mem_cons_self _ _)
    have hstep : AdjacencyMatrix.growStep oldV g acc i =
        (acc.1, acc.2.set i (acc.2.getD i [] ++ List.replicate (g + 1 - oldV) (none : W))) := by
      unfold AdjacencyMatrix.growStep
      rw [if_pos hi]
      rw [hidi]
      rw [storeFold_collapse i _ _ hilen]
      rw [extendRow_eq _ _ _ hirow]
    rw [List.foldl_cons, hstep]
    have hnotin : i ∉ rest := (List.nodup_cons.mp hnd).1
    obtain ⟨h1, h2, h3⟩ := ih (acc.1,
        acc.2.set i (acc.2.getD i [] ++ List.replicate (g + 1 - oldV) (none : W)))
      (fun a ha => hlt a (List.mem_cons_of_mem _ ha))
      (List.nodup_cons.mp hnd).2
      (fun a ha => hid a (List.mem_cons_of_mem _ ha))
      (fun a ha => by
        show a < (acc.2.set i _).length
        rw [List.length_set]
        exact hveclen a (List.mem_cons_of_mem _ ha))
      (fun a ha => by
        show ((acc.2.set i _).getD a []).length = oldV
        rw [getD_set_ne _ _ _ (fun h => hnotin (by rw [h]; exact ha))]
        exact hrowlen a (List.mem_cons_of_mem _ ha))
    refine ⟨h1, by rw [h2, List.length_set], fun u => ?_⟩
    rw [h3 u]
    by_cases hu : u ∈ i :: rest
    · rcases List.mem_cons.mp hu with he | hr
      · subst he
        rw [if_neg hnotin, if_pos hu]
        exact getD_set_self _ _ _ hilen
      · rw [if_pos hr, if_pos hu]
        rw [getD_set_ne _ _ _ (fun h => hnotin (by rw [h]; exact hr))]
    · have hne : u ∉ rest := fun h => hu (List.mem_cons_of_mem _ h)
      have hnei : u ≠ i := fun h => hu (h ▸ List.mem_cons_self _ _)
      rw [if_neg hne, if_neg hu]
      exact getD_set_ne _ _ _ (fun h => hnei h.symm)

/-- Phase 2 appends the fresh rows, with references in lockstep with the
store. -/
theorem growPhase2_content (oldV g : Nat) :
    ∀ (is : List Nat) (acc : List Nat × List (List W)), (∀ i ∈ is, oldV ≤ i) →
      (is.foldl (AdjacencyMatrix.growStep oldV g) acc).1
        = acc.1 ++ List.range' acc.2.length is.length ∧
      (is.foldl (AdjacencyMatrix.growStep oldV g) acc).2
        = acc.2 ++ List.replicate is.length (List.replicate (g + 1) (none : W)) := by
  intro is
  induction is with
  | nil => intro acc _; simp
  | cons i rest ih =>
    intro acc hge
    have hstep : AdjacencyMatrix.growStep oldV g acc i =
        (acc.1 ++ [acc.2.length], acc.2 ++ [List.replicate (g + 1) (none : W)]) := by
      unfold AdjacencyMatrix.growStep
      rw [if_neg (by have := hge i (List.mem_cons_self _ _); omega)]
    rw [List.foldl_cons, hstep]
    obtain ⟨h1, h2⟩ := ih (acc.1 ++ [acc.2.length],
        acc.2 ++ [List.replicate (g + 1) (none : W)])
      (fun a ha => hge a (List.mem_cons_of_mem _ ha))
    constructor
    · rw [h1]
      simp only [List.length_append, List.length_singleton, List.length_cons]
      rw [List.append_assoc]
      congr 1
    · rw [h2]
      show acc.2 ++ [List.replicate (g + 1) (none : W)] ++ _ = _
      rw [List.append_assoc, List.length_cons]
      congr 1


/-- Full description of `grow` for the unaliased from-empty layout. -/
theorem grow_content (m : AdjacencyMatrix.St) (g : Nat)
    (hr : m.rowIds = List.range m.vertices)
    (hs : m.store.length = m.vertices)
    (hrl : ∀ u, u < m.vertices → (m.store.getD u []).length = m.vertices)
    (hg : m.vertices ≤ g) :
    (AdjacencyMatrix.grow m g).vertices = g + 1 ∧
    (AdjacencyMatrix.grow m g).rowIds = List.range (g + 1) ∧
    (AdjacencyMatrix.grow m g).store.length = g + 1 ∧
    (∀ u, u < m.vertices → (AdjacencyMatrix.grow m g).store.getD u []
      = m.store.getD u [] ++ List.replicate (g + 1 - m.vertices) (none : W)) ∧
    (∀ u, m.vertices ≤ u → u < g + 1 →
      (AdjacencyMatrix.grow m g).store.getD u []
        = List.replicate (g + 1) (none : W)) := by
  rw [grow_eq_phases m g (by omega)]
  obtain ⟨p1a, p1b, p1c⟩ := growPhase1_content m.vertices g (List.range m.vertices)
    (m.rowIds, m.store)
    (fun i hi => List.mem_range.mp hi) (List.nodup_range _)
    (fun i hi => by
      show m.rowIds.getD i 0 = i
      rw [hr]; exact getD_range (List.mem_range.mp hi))
    (fun i hi => by show i < m.store.length; rw [hs]; exact List.mem_range.mp hi)
    (fun i hi => hrl i (List.mem_range.mp hi))
  obtain ⟨p2a, p2b⟩ := growPhase2_content m.vertices g
    (List.range' m.vertices (g + 1 - m.vertices))
    ((List.range m.vertices).foldl (AdjacencyMatrix.growStep m.vertices g)
      (m.rowIds, m.store))
    (fun i hi => by
      rw [List.range'_eq_map_range] at hi
      obtain ⟨x, _, hx⟩ := List.mem_map.mp hi
      omega)
  have hlen1 : ((List.range m.vertices).foldl (AdjacencyMatrix.growStep m.vertices g)
      (m.rowIds, m.store)).2.length = m.vertices := by
    rw [p1b]; exact hs
  have hcat : List.range m.vertices ++ List.range' m.vertices (g + 1 - m.vertices)
      = List.range (g + 1) := by
    rw [List.range'_eq_map_range, ← List.range_add,
      show m.vertices + (g + 1 - m.vertices) = g + 1 from by omega]
  refine ⟨rfl, ?_, ?_, ?_, ?_⟩
  · show _ = List.range (g + 1)
    rw [p2a, p1a, hlen1]
    simp only [List.length_range']
    show m.rowIds ++ _ = _
    rw [hr]
    exact hcat
  · show _ = g + 1
    rw [p2b, List.length_append, List.length_replicate, hlen1]
    simp only [List.length_range']
    omega
  · intro u hu
    show _ = m.store.getD u [] ++ _
    rw [p2b, getD_append_left _ _ _ (by rw [hlen1]; exact hu), p1c u,
      if_pos (List.mem_range.mpr hu)]
  · intro u hu1 hu2
    show _ = List.replicate (g + 1) (none : W)
    rw [p2b, getD_append_right _ _ _ (by rw [hlen1]; exact hu1), hlen1]
    exact getD_replicate _ _ (by simp only [List.length_range']; omega)

/-- `writeCell` on the from-empty layout: one cell changes, everything else
is untouched. -/
theorem writeCell_content (m1 : AdjacencyMatrix.St) (s d : Nat) (x : W)
    (hr : m1.rowIds = List.range m1.vertices)
    (hs : m1.store.length = m1.vertices)
    (hrl : ∀ u, u < m1.vertices → (m1.store.getD u []).length = m1.vertices)
    (hsv : s < m1.vertices) (hdv : d < m1.vertices) :
    (AdjacencyMatrix.writeCell m1 s d x).vertices = m1.vertices ∧
    (AdjacencyMatrix.writeCell m1 s d x).rowIds = m1.rowIds ∧
    (AdjacencyMatrix.writeCell m1 s d x).store.length = m1.vertices ∧
    (∀ u, u < m1.vertices →
      ((AdjacencyMatrix.writeCell m1 s d x).store.getD u []).length = m1.vertices) ∧
    (∀ u v, u < m1.vertices → v < m1.vertices →
      ((AdjacencyMatrix.writeCell m1 s d x).store.getD u []).getD v none
        = if u = s ∧ v = d then x else (m1.store.getD u []).getD v none) := by
  have hrids : m1.rowIds.getD s 0 = s := by rw [hr]; exact getD_range hsv
  have hslen : s < m1.store.length := by rw [hs]; exact hsv
  have hdrow : d < (m1.store.getD s []).length := by rw [hrl s hsv]; exact hdv
  have hwAt : AdjacencyMatrix.writeAt (m1.store.getD s []) d x
      = (m1.store.getD s []).set d x := by
    unfold AdjacencyMatrix.writeAt
    rw [if_pos hdrow]
  have hstore : (AdjacencyMatrix.writeCell m1 s d x).store
      = m1.store.set s ((m1.store.getD s []).set d x) := by
    show m1.store.set (m1.rowIds.getD s 0)
      (AdjacencyMatrix.writeAt (m1.store.getD (m1.rowIds.getD s 0) []) d x) = _
    rw [hrids, hwAt]
  refine ⟨rfl, rfl, ?_, ?_, ?_⟩
  · rw [hstore, List.length_set]; exact hs
  · intro u hu
    rw [hstore]
    by_cases hus : u = s
    · subst hus
      rw [getD_set_self _ _ _ hslen, List.length_set]
      exact hrl u hu
    · rw [getD_set_ne _ _ _ (fun h => hus h.symm)]
      exact hrl u hu
  · intro u v hu hv
    rw [hstore]
    by_cases hus : u = s
    · subst hus
      rw [getD_set_self _ _ _ hslen]
      by_cases hvd : v = d
      · subst hvd
        rw [getD_set_self _ _ _ hdrow, if_pos ⟨rfl, rfl⟩]
      · rw [getD_set_ne _ _ _ (fun h => hvd h.symm), if_neg (fun h => hvd h.2)]
    · rw [getD_set_ne _ _ _ (fun h => hus h.symm), if_neg (fun h => hus h.1)]

/-- The simulation between an adjacency-list state and a from-empty
adjacency-matrix state: same vertex count, identity row references, square
store, and cell-for-cell agreement with the list's lookups. -/
structure Sim (a : AdjacencyList.St) (m : AdjacencyMatrix.St) : Prop where
  sizes : m.vertices = a.vertices
  rids : m.rowIds = List.range m.vertices
  slen : m.store.length = m.vertices
  rowlen : ∀ u, u < m.vertices → (m.store.getD u []).length = m.vertices
  cells : ∀ u v, u < m.vertices → v < m.vertices →
    (m.store.getD u []).getD v none = adjLookup a u v
  dom : ∀ u v, adjLookup a u v ≠ none → u < a.vertices ∧ v < a.vertices

theorem sim_empty : Sim AdjacencyList.empty AdjacencyMatrix.empty := by
  refine ⟨rfl, rfl, rfl, ?_, ?_, ?_⟩
  · intro u hu; exact absurd hu (by simp [AdjacencyMatrix.empty])
  · intro u v hu _; exact absurd hu (by simp [AdjacencyMatrix.empty])
  · intro u v h
    exact absurd rfl h

theorem sim_setEdge {a : AdjacencyList.St} {m : AdjacencyMatrix.St}
    (h : Sim a m) (s d : Nat) (w : Option Int) :
    Sim (AdjacencyList.setEdge a s d w) (AdjacencyMatrix.setEdge m s d w) := by
  have hAv : (AdjacencyList.setEdge a s d w).vertices
      = max a.vertices (max (s + 1) (d + 1)) := rfl
  have hdom : ∀ u v, adjLookup (AdjacencyList.setEdge a s d w) u v ≠ none →
      u < (AdjacencyList.setEdge a s d w).vertices ∧
      v < (AdjacencyList.setEdge a s d w).vertices := by
    intro u v hne
    rw [adjLookup_setEdge] at hne
    rw [hAv]
    by_cases he : u = s ∧ v = d
    · omega
    · rw [if_neg he] at hne
      have := h.dom u v hne
      omega
  unfold AdjacencyMatrix.setEdge
  by_cases hg : m.vertices ≤ s ∨ m.vertices ≤ d
  · rw [if_pos hg]
    have hgm : m.vertices ≤ max s d := by omega
    obtain ⟨g1, g2, g3, g4, g5⟩ := grow_content m (max s d) h.rids h.slen h.rowlen hgm
    have hcellsG : ∀ u v, u < max s d + 1 → v < max s d + 1 →
        ((AdjacencyMatrix.grow m (max s d)).store.getD u []).getD v none
          = adjLookup a u v := by
      intro u v hu hv
      by_cases hum : u < m.vertices
      · rw [g4 u hum]
        by_cases hvm : v < m.vertices
        · rw [getD_append_left _ _ _ (by rw [h.rowlen u hum]; exact hvm)]
          exact h.cells u v hum hvm
        · rw [getD_append_right _ _ _ (by rw [h.rowlen u hum]; omega),
            h.rowlen u hum]
          by_cases hnone : adjLookup a u v = none
          · rw [hnone]
            by_cases hidx : v - m.vertices < max s d + 1 - m.vertices
            · exact getD_replicate _ _ hidx
            · rw [List.getD_eq_getElem?_getD, List.getElem?_eq_none
                (by simp only [List.length_replicate]; omega)]
              rfl
          · have := h.dom u v hnone
            rw [h.sizes] at hvm
            omega
      · rw [g5 u (by omega) hu]
        by_cases hnone : adjLookup a u v = none
        · rw [hnone]
          exact getD_replicate _ _ hv
        · have := h.dom u v hnone
          rw [h.sizes] at hum
          omega
    have hrowlenG : ∀ u, u < max s d + 1 →
        (((AdjacencyMatrix.grow m (max s d)).store.getD u []).length)
          = max s d + 1 := by
      intro u hu
      by_cases hum : u < m.vertices
      · rw [g4 u hum, List.length_append, List.length_replicate, h.rowlen u hum]
        omega
      · rw [g5 u (by omega) hu, List.length_replicate]
    obtain ⟨w1, w2, w3, w4, w5⟩ := writeCell_content (AdjacencyMatrix.grow m (max s d))
      s d (some (w.getD 0)) (g1 ▸ g2) (g1 ▸ g3) (g1 ▸ hrowlenG)
      (by rw [g1]; omega) (by rw [g1]; omega)
    refine ⟨?_, ?_, ?_, ?_, ?_, hdom⟩
    · rw [w1, g1, hAv]
      have := h.sizes
      omega
    · rw [w2, g2, w1, g1]
    · rw [w3, w1]
    · intro u hu
      rw [w1] at hu ⊢
      exact w4 u hu
    · intro u v hu hv
      rw [w1] at hu hv
      rw [w5 u v hu hv, adjLookup_setEdge]
      have hcg := hcellsG u v (by rw [g1] at hu; exact hu) (by rw [g1] at hv; exact hv)
      by_cases he : u = s ∧ v = d
      · rw [if_pos he, if_pos he]
      · rw [if_neg he, if_neg he]
        exact hcg
  · rw [if_neg hg]
    push_neg at hg
    obtain ⟨w1, w2, w3, w4, w5⟩ := writeCell_content m s d (some (w.getD 0))
      h.rids h.slen h.rowlen hg.1 hg.2
    refine ⟨?_, ?_, ?_, ?_, ?_, hdom⟩
    · rw [w1, hAv]
      have := h.sizes
      omega
    · rw [w2, w1]
      exact h.rids
    · rw [w3, w1]
    · intro u hu
      rw [w1] at hu ⊢
      exact w4 u hu
    · intro u v hu hv
      rw [w1] at hu hv
      rw [w5 u v hu hv, adjLookup_setEdge]
      by_cases he : u = s ∧ v = d
      · rw [if_pos he, if_pos he]
      · rw [if_neg he, if_neg he]
        exact h.cells u v hu hv

theorem sim_run (ops : List EdgeOp) : Sim (runAdj ops) (runMat ops) := by
  unfold runAdj runMat
  have hgen : ∀ (l : List EdgeOp) (a : AdjacencyList.St) (m : AdjacencyMatrix.St),
      Sim a m →
      Sim (l.foldl (fun st op => AdjacencyList.setEdge st op.1 op.2.1 op.2.2) a)
        (l.foldl (fun st op => AdjacencyMatrix.setEdge st op.1 op.2.1 op.2.2) m) := by
    intro l
    induction l with
    | nil => intro a m hs; exact hs
    | cons op rest ih =>
      intro a m hs
      exact ih _ _ (sim_setEdge hs op.1 op.2.1 op.2.2)
  exact hgen ops _ _ sim_empty

theorem sim_weight {a : AdjacencyList.St} {m : AdjacencyMatrix.St} (h : Sim a m)
    (u v : Nat) :
    AdjacencyMatrix.weight m u v = AdjacencyList.weight a u v := by
  by_cases hb : a.vertices ≤ u ∨ a.vertices ≤ v
  · unfold AdjacencyMatrix.weight AdjacencyList.weight
    rw [if_pos (by rw [h.sizes]; exact hb), if_pos hb]
  · push_neg at hb
    rw [adjList_weight_inbounds a hb.1 hb.2]
    unfold AdjacencyMatrix.weight
    rw [if_neg (by rw [h.sizes]; omega)]
    unfold AdjacencyMatrix.row
    have hu : u < m.vertices := by rw [h.sizes]; exact hb.1
    have hv : v < m.vertices := by rw [h.sizes]; exact hb.2
    have hrid : m.rowIds.getD u 0 = u := by rw [h.rids]; exact getD_range hu
    rw [hrid, h.cells u v hu hv]

theorem sim_neighbors {a : AdjacencyList.St} {m : AdjacencyMatrix.St}
    (h : Sim a m) (u : Nat) (hu : u < a.vertices) :
    ∃ la lm, AdjacencyList.neighbors a u = .ok la ∧
      AdjacencyMatrix.neighbors m u = .ok lm ∧ ∀ x, x ∈ la ↔ x ∈ lm := by
  have hum : u < m.vertices := by rw [h.sizes]; exact hu
  have hrid : m.rowIds.getD u 0 = u := by rw [h.rids]; exact getD_range hum
  have hrow : AdjacencyMatrix.row m u = m.store.getD u [] := by
    unfold AdjacencyMatrix.row
    rw [hrid]
  refine ⟨((mapGet a.adj u).getD []).map Prod.fst,
    (List.range (AdjacencyMatrix.row m u).length).filter
      (fun i => ((AdjacencyMatrix.row m u).getD i (none : W)).isSome),
    by unfold AdjacencyList.neighbors; rw [if_neg (by omega)],
    by unfold AdjacencyMatrix.neighbors; rw [if_neg (by rw [h.sizes]; omega)], ?_⟩
  intro x
  have hmem_la : x ∈ ((mapGet a.adj u).getD []).map Prod.fst
      ↔ adjLookup a u x ≠ none := by
    unfold adjLookup
    cases hout : mapGet a.adj u with
    | none => simp
    | some inner =>
      show x ∈ inner.map Prod.fst ↔ _
      exact (mapGet_isSome_iff_mem inner x).symm
  have hmem_lm : x ∈ (List.range (AdjacencyMatrix.row m u).length).filter
      (fun i => ((AdjacencyMatrix.row m u).getD i (none : W)).isSome)
      ↔ x < m.vertices ∧ adjLookup a u x ≠ none := by
    rw [List.mem_filter, List.mem_range, hrow, h.rowlen u hum]
    constructor
    · rintro ⟨hx, hsome⟩
      rw [h.cells u x hum hx] at hsome
      exact ⟨hx, by
        intro hnone
        rw [hnone] at hsome
        cases hsome⟩
    · rintro ⟨hx, hne⟩
      refine ⟨hx, ?_⟩
      rw [h.cells u x hum hx]
      cases hl : adjLookup a u x with
      | none => exact absurd hl hne
      | some y => rfl
  rw [hmem_la, hmem_lm]
  constructor
  · intro hne
    have := h.dom u x hne
    rw [h.sizes]
    exact ⟨this.2, hne⟩
  · exact fun hx => hx.2

/-- C1 (amended): the adjacency-list and adjacency-matrix backends *are*
equivalent for every `setEdge` sequence from an empty storage — equal
`size()`, equal `weight(u,v)` (as full results, including the error cases)
and equal `neighbors(u)` as sets.  The edge-list backend is the one that
breaks the original three-way claim (see the counterexample). -/
theorem C1_theorem (ops : List EdgeOp) (u v : Nat)
    (hu : u < (runAdj ops).vertices) (_hv : v < (runAdj ops).vertices) :
    (runMat ops).vertices = (runAdj ops).vertices ∧
    AdjacencyMatrix.weight (runMat ops) u v = AdjacencyList.weight (runAdj ops) u v ∧
    ∃ la lm, AdjacencyList.neighbors (runAdj ops) u = .ok la ∧
      AdjacencyMatrix.neighbors (runMat ops) u = .ok lm ∧
      ∀ x, x ∈ la ↔ x ∈ lm := by
  have hs := sim_run ops
  exact ⟨hs.sizes, sim_weight hs u v, sim_neighbors hs u hu⟩

/-- C1 (witness). -/
theorem C1_witness :
    (runMat [(0, 1, some 5)]).vertices = (runAdj [(0, 1, some 5)]).vertices ∧
    AdjacencyMatrix.weight (runMat [(0, 1, some 5)]) 0 1
      = AdjacencyList.weight (runAdj [(0, 1, some 5)]) 0 1 ∧
    ∃ la lm, AdjacencyList.neighbors (runAdj [(0, 1, some 5)]) 0 = .ok la ∧
      AdjacencyMatrix.neighbors (runMat [(0, 1, some 5)]) 0 = .ok lm ∧
      ∀ x, x ∈ la ↔ x ∈ lm :=
  C1_theorem [(0, 1, some 5)] 0 1 (by decide) (by decide)


/-- A lookup is absent after a run of `setEdge` calls exactly when it was
absent before and no call targeted that pair. -/
theorem adjLookup_foldl (u v : Nat) :
    ∀ (ops : List EdgeOp) (a : AdjacencyList.St),
      adjLookup (ops.foldl
          (fun st op => AdjacencyList.setEdge st op.1 op.2.1 op.2.2) a) u v = none
        ↔ adjLookup a u v = none ∧ ∀ w, (u, v, w) ∉ ops := by
  intro ops
  induction ops with
  | nil => intro a; simp
  | cons op rest ih =>
    intro a
    rw [List.foldl_cons, ih]
    rw [adjLookup_setEdge]
    by_cases he : u = op.1 ∧ v = op.2.1
    · rw [if_pos he]
      constructor
      · rintro ⟨hsome, _⟩
        cases hsome
      · rintro ⟨_, hmem⟩
        exact absurd (by
          show (u, v, op.2.2) ∈ op :: rest
          rw [show op = (u, v, op.2.2) from by
            obtain ⟨h1, h2⟩ := he
            rw [h1, h2]]
          exact List.mem_cons_self _ _) (hmem op.2.2)
    · rw [if_neg he]
      constructor
      · rintro ⟨h1, h2⟩
        refine ⟨h1, fun w hw => ?_⟩
        rcases List.mem_cons.mp hw with hh | hh
        · apply he
          rw [← hh]
          exact ⟨rfl, rfl⟩
        · exact h2 w hh
      · rintro ⟨h1, h2⟩
        exact ⟨h1, fun w hw => h2 w (List.mem_cons_of_mem _ hw)⟩

/-- C5 (amended): on the adjacency-list backend, and on the adjacency-matrix
backend when constructed empty, `weight(u,v) = +Infinity` iff no `setEdge`
call for `u → v` was ever made (`u, v < size()`).  The edge-list backend
violates the original claim (see the counterexample): its `setEdge` also
materialises self-loop edges that were never set. -/
theorem C5_theorem (ops : List EdgeOp) (u v : Nat)
    (hu : u < (runAdj ops).vertices) (hv : v < (runAdj ops).vertices) :
    (AdjacencyList.weight (runAdj ops) u v = .ok none ↔ ∀ w, (u, v, w) ∉ ops) ∧
    (AdjacencyMatrix.weight (runMat ops) u v = .ok none ↔ ∀ w, (u, v, w) ∉ ops) := by
  have hsim := sim_run ops
  have hlist : AdjacencyList.weight (runAdj ops) u v = .ok none
      ↔ ∀ w, (u, v, w) ∉ ops := by
    rw [adjList_weight_inbounds _ hu hv]
    constructor
    · intro h
      have hn : adjLookup (runAdj ops) u v = none := Except.ok.inj h
      exact ((adjLookup_foldl u v ops AdjacencyList.empty).mp hn).2
    · intro h
      rw [show adjLookup (runAdj ops) u v = none from
        (adjLookup_foldl u v ops AdjacencyList.empty).mpr ⟨rfl, h⟩]
  refine ⟨hlist, ?_⟩
  rw [sim_weight hsim u v]
  exact hlist

/-- C5 (witness). -/
theorem C5_witness :
    (AdjacencyList.weight (runAdj [(0, 1, some 5)]) 1 0 = .ok none
      ↔ ∀ w, ((1 : Nat), (0 : Nat), w) ∉ [((0 : Nat), (1 : Nat), some (5 : Int))]) ∧
    (AdjacencyMatrix.weight (runMat [(0, 1, some 5)]) 1 0 = .ok none
      ↔ ∀ w, ((1 : Nat), (0 : Nat), w) ∉ [((0 : Nat), (1 : Nat), some (5 : Int))]) :=
  C5_theorem [(0, 1, some 5)] 1 0 (by decide) (by decide)


/-! ## IndexedPriorityQueue: the map is consistent for displacement-free
enqueue sequences -/

theorem mapGet_eq_none {β : Type} (m : List (Nat × β)) (k : Nat)
    (h : k ∉ m.map Prod.fst) : mapGet m k = none := by
  by_cases hg : mapGet m k = none
  · exact hg
  · exact absurd ((mapGet_isSome_iff_mem m k).mp hg) h

theorem mapSet_append {β : Type} (m : List (Nat × β)) (k : Nat) (v : β)
    (h : k ∉ m.map Prod.fst) : mapSet m k v = m ++ [(k, v)] := by
  induction m with
  | nil => rfl
  | cons p rest ih =>
    obtain ⟨k₁, v₁⟩ := p
    simp only [List.map_cons, List.mem_cons] at h
    push_neg at h
    rw [mapSet, if_neg (fun he => h.1 he.symm)]
    rw [ih h.2]
    rfl

/-- If the entry at `index` does not outrank the parent it reads, the
modelled swim-up stays put. -/
theorem bhSwimGo_stay (fuel : Nat) (l : List IPQ.Entry) (index : Nat)
    (h : ∀ value parentValue, l[index]? = some value →
      l[(index - 1) / 2]? = some parentValue →
      IPQ.outranks value parentValue = false) :
    IPQ.bhSwimGo fuel l index = (l, index) := by
  match index, fuel with
  | 0, fuel => cases fuel <;> rfl
  | i + 1, 0 => rfl
  | i + 1, f + 1 =>
    show (match l[i + 1]?, l[(i + 1 - 1) / 2]? with
      | some value, some parentValue =>
        if IPQ.outranks value parentValue then
          IPQ.bhSwimGo f (DAryHeap.swap l (i + 1) ((i + 1 - 1) / 2)) ((i + 1 - 1) / 2)
        else (l, i + 1)
      | _, _ => (l, i + 1)) = (l, i + 1)
    cases hv : l[i + 1]? with
    | none => rfl
    | some value =>
      cases hp : l[(i + 1 - 1) / 2]? with
      | none => rfl
      | some parentValue =>
        show (if IPQ.outranks value parentValue then _ else _) = (l, i + 1)
        rw [h value parentValue hv hp]
        rfl

/-- Inserting an entry whose priority does not exceed any present entry's
appends it at the end; the reported index is its true position. -/
theorem bhInsert_append (l : List IPQ.Entry) (e : IPQ.Entry)
    (h : ∀ x ∈ l, e.2 ≤ x.2) :
    IPQ.bhInsert l e = (l ++ [e], l.length) := by
  unfold IPQ.bhInsert
  have hlen : (l ++ [e]).length - 1 = l.length := by
    rw [List.length_append, List.length_singleton]
    omega
  rw [hlen]
  apply bhSwimGo_stay
  intro value parentValue hv hp
  have hval : value = e := by
    rw [List.getElem?_append_right (le_refl _), Nat.sub_self] at hv
    cases hv
    rfl
  subst hval
  rw [IPQ.outranks, decide_eq_false_iff_not]
  cases hl : l.length with
  | zero =>
    have hempty : l = [] := List.length_eq_zero.mp hl
    subst hempty
    simp at hp
    rw [hp]
    omega
  | succ n =>
    have hpi : (l.length - 1) / 2 < l.length := by omega
    rw [List.getElem?_append, if_pos hpi] at hp
    have hmem : parentValue ∈ l := List.getElem?_mem hp
    have := h parentValue hmem
    omega

/-- The hash the queue builds for an append-only heap: value `k` of the
entry at position `i` maps to `i`. -/
def expectedHash : List IPQ.Entry → Nat → List (Nat × Nat)
  | [], _ => []
  | e :: rest, i => (e.1, i) :: expectedHash rest (i + 1)

theorem expectedHash_keys : ∀ (xs : List IPQ.Entry) (i : Nat),
    (expectedHash xs i).map Prod.fst = xs.map Prod.fst := by
  intro xs
  induction xs with
  | nil => intro i; rfl
  | cons e rest ih =>
    intro i
    show (e.1, i).1 :: (expectedHash rest (i + 1)).map Prod.fst = _
    rw [ih]
    rfl

theorem expectedHash_append : ∀ (xs : List IPQ.Entry) (e : IPQ.Entry) (i : Nat),
    expectedHash (xs ++ [e]) i = expectedHash xs i ++ [(e.1, i + xs.length)] := by
  intro xs
  induction xs with
  | nil => intro e i; rfl
  | cons x rest ih =>
    intro e i
    show (x.1, i) :: expectedHash (rest ++ [e]) (i + 1) = _
    rw [ih]
    show _ = (x.1, i) :: (expectedHash rest (i + 1) ++ [(e.1, i + (rest.length + 1))])
    rw [show i + (rest.length + 1) = i + 1 + rest.length from by omega]

theorem expectedHash_lookup : ∀ (xs : List IPQ.Entry) (i₀ x i : Nat),
    mapGet (expectedHash xs i₀) x = some i →
    i₀ ≤ i ∧ ∃ p, xs[i - i₀]? = some (x, p) := by
  intro xs
  induction xs with
  | nil => intro i₀ x i h; cases h
  | cons e rest ih =>
    intro i₀ x i h
    rw [expectedHash, mapGet] at h
    by_cases he : e.1 = x
    · rw [if_pos he] at h
      cases h
      refine ⟨le_refl _, e.2, ?_⟩
      rw [Nat.sub_self, List.getElem?_cons_zero, ← he]
    · rw [if_neg he] at h
      obtain ⟨h1, p, h2⟩ := ih (i₀ + 1) x i h
      refine ⟨by omega, p, ?_⟩
      rw [show i - i₀ = (i - (i₀ + 1)) + 1 from by omega, List.getElem?_cons_succ]
      exact h2

/-- The enqueue-only run with distinct values and non-increasing priorities:
the heap is exactly the entry list and the hash is the exact position map. -/
theorem runEnq_state : ∀ (es : List (Nat × Int)) (pre : List IPQ.Entry)
    (st : IPQ.St), st.heap = pre → st.hash = expectedHash pre 0 →
    ((pre ++ es).map Prod.fst).Nodup →
    (pre ++ es).Pairwise (fun p q => q.2 ≤ p.2) →
    (es.foldl (fun s e => IPQ.enqueue s e.1 e.2) st).heap = pre ++ es ∧
    (es.foldl (fun s e => IPQ.enqueue s e.1 e.2) st).hash
      = expectedHash (pre ++ es) 0 := by
  intro es
  induction es with
  | nil =>
    intro pre st h1 h2 _ _
    simp only [List.foldl_nil, List.append_nil]
    exact ⟨h1, h2⟩
  | cons e rest ih =>
    intro pre st h1 h2 hnd hpw
    rw [List.foldl_cons]
    have hnotin : e.1 ∉ pre.map Prod.fst := by
      intro hmem
      rw [List.map_append, List.nodup_append] at hnd
      exact hnd.2.2 hmem (by
        show e.1 ∈ (e :: rest).map Prod.fst
        exact List.mem_cons_self _ _)
    have hget : mapGet st.hash e.1 = none := by
      rw [h2]
      apply mapGet_eq_none
      rw [expectedHash_keys]
      exact hnotin
    have hle : ∀ x ∈ pre, e.2 ≤ x.2 := by
      intro x hx
      have := (List.pairwise_append.mp hpw).2.2 x hx e (List.mem_cons_self _ _)
      exact this
    have henq : IPQ.enqueue st e.1 e.2 =
        ⟨pre ++ [e], expectedHash (pre ++ [e]) 0⟩ := by
      unfold IPQ.enqueue
      rw [hget]
      show (⟨(IPQ.bhInsert st.heap (e.1, e.2)).1,
        mapSet st.hash e.1 (IPQ.bhInsert st.heap (e.1, e.2)).2⟩ : IPQ.St) = _
      rw [h1, h2, show ((e.1, e.2) : IPQ.Entry) = e from rfl,
        bhInsert_append pre e hle,
        mapSet_append _ _ _ (by rw [expectedHash_keys]; exact hnotin),
        expectedHash_append, Nat.zero_add]
    rw [henq]
    have happ : pre ++ e :: rest = (pre ++ [e]) ++ rest := by
      rw [List.append_assoc]
      rfl
    rw [happ] at hnd hpw ⊢
    exact ih (pre ++ [e]) _ rfl rfl hnd hpw

/-- C4 (amended): the map-consistency invariant holds for the
displacement-free regime — sequences of `enqueue` calls with pairwise
distinct values and non-increasing priorities (each insert lands at the end
without moving other entries): afterwards every tracked value's map entry is
its true position in the heap array.  In general the invariant fails: both
`enqueue`'s swim-up and `dequeue`'s sink-down move other entries without
updating their map entries (see the counterexample). -/
theorem C4_theorem (entries : List (Nat × Int))
    (hdist : (entries.map Prod.fst).Nodup)
    (hsorted : entries.Pairwise (fun p q => q.2 ≤ p.2)) :
    ∀ x i, mapGet (IPQ.runEnq entries).hash x = some i →
      ∃ p, (IPQ.runEnq entries).heap[i]? = some (x, p) := by
  obtain ⟨hheap, hhash⟩ := runEnq_state entries [] IPQ.empty rfl rfl
    (by simpa using hdist) (by simpa using hsorted)
  intro x i hx
  unfold IPQ.runEnq at hx ⊢
  rw [hhash] at hx
  obtain ⟨_, p, hp⟩ := expectedHash_lookup entries 0 x i (by simpa using hx)
  refine ⟨p, ?_⟩
  rw [hheap]
  simpa using hp

/-- C4 (witness). -/
theorem C4_witness :
    ∃ p, (IPQ.runEnq [(5, 10), (6, 4)]).heap[1]? = some (6, p) :=
  C4_theorem [(5, 10), (6, 4)] (by decide) (by decide) 6 1 (by decide)

namespace DAryHeap

/-- The child relation of a `d`-ary heap laid out in an array: `c` is one of
the indices `d*i + 1 .. d*i + d`. -/
def IsChild (d i c : Nat) : Prop := ∃ k, 1 ≤ k ∧ k ≤ d ∧ c = d * i + k

/-- A comparator that behaves like a strict weak order when read through
`isLessThan` (`a < b` iff `cmp a b > 0`), as the heap requires of its
injected `lessThanCompare`: swapping the arguments flips the sign, and both
the strict order and its complement are transitive. -/
structure LawfulCmp {α : Type} (cmp : α → α → Int) : Prop where
  flip : ∀ a b, 0 < cmp a b ↔ cmp b a < 0
  lt_trans : ∀ a b c, 0 < cmp a b → 0 < cmp b c → 0 < cmp a c
  nlt_trans : ∀ a b c, ¬ 0 < cmp a b → ¬ 0 < cmp b c → ¬ 0 < cmp a c

theorem defaultLessThanCompare_lawful : LawfulCmp defaultLessThanCompare := by
  refine ⟨fun a b => ?_, fun a b c => ?_, fun a b c => ?_⟩ <;>
    simp only [defaultLessThanCompare] <;> omega

theorem LawfulCmp.irrefl {α : Type} {cmp : α → α → Int} (hc : LawfulCmp cmp)
    (a : α) : ¬ 0 < cmp a a := by
  intro h
  have := (hc.flip a a).mp h
  omega

theorem isLessThan_true_iff {α : Type} (cmp : α → α → Int) (a b : α) :
    isLessThan cmp a b = true ↔ 0 < cmp a b := by
  simp [isLessThan]

/-- The heap-order property from index `t` on: every in-bounds parent/child
pair whose parent index is `≥ t` is correctly ordered (the child is not
`isLessThan` the parent). -/
def InvFrom {α : Type} (cmp : α → α → Int) (d t : Nat) (l : List α) : Prop :=
  ∀ i c, IsChild d i c → c < l.length → t ≤ i →
    ∀ a b, l[i]? = some a → l[c]? = some b → ¬ 0 < cmp b a

/-- The full heap-order property. -/
def Inv {α : Type} (cmp : α → α → Int) (d : Nat) (l : List α) : Prop :=
  InvFrom cmp d 0 l

theorem isChild_lt {d i c : Nat} (h : IsChild d i c) : i < c := by
  obtain ⟨k, h1, h2, rfl⟩ := h
  have : i ≤ d * i := Nat.le_mul_of_pos_left i (by omega)
  omega

theorem isChild_pos {d i c : Nat} (h : IsChild d i c) : c ≠ 0 := by
  obtain ⟨k, h1, _, rfl⟩ := h
  omega

/-- Each index has a unique heap parent: a child of `i` has `parentIndex = i`. -/
theorem isChild_parent {d i c : Nat} (h : IsChild d i c) :
    i = parentIndex d c := by
  obtain ⟨k, h1, h2, rfl⟩ := h
  unfold parentIndex
  rw [show d * i + k - 1 = d * i + (k - 1) by omega,
    Nat.mul_add_div (by omega), Nat.div_eq_of_lt (by omega)]
  omega

/-- Every nonzero index is a child of its `parentIndex`. -/
theorem parent_isChild {d c : Nat} (hd : 1 ≤ d) (hc : c ≠ 0) :
    IsChild d (parentIndex d c) c := by
  refine ⟨(c - 1) % d + 1, by omega, by
    have := Nat.mod_lt (c - 1) (show 0 < d by omega)
    omega, ?_⟩
  unfold parentIndex
  have h1 := Nat.div_add_mod (c - 1) d
  omega

theorem parentIndex_lt {d c : Nat} (hc : c ≠ 0) : parentIndex d c < c := by
  have := @parentIndex_le d c
  omega

theorem getElem?_swap_left {α : Type} {l : List α} {i j : Nat}
    (hi : i < l.length) (hj : j < l.length) : (swap l i j)[i]? = l[j]? := by
  obtain ⟨a, ha⟩ : ∃ a, l[i]? = some a := ⟨_, List.getElem?_eq_getElem hi⟩
  obtain ⟨b, hb⟩ : ∃ b, l[j]? = some b := ⟨_, List.getElem?_eq_getElem hj⟩
  unfold swap
  rw [ha, hb]
  show ((l.set i b).set j a)[i]? = some b
  by_cases hij : i = j
  · subst hij
    rw [List.getElem?_set_self (by simpa using hi)]
    exact ha.symm.trans hb
  · rw [List.getElem?_set_ne (by omega), List.getElem?_set_self (by simpa using hi)]

theorem getElem?_swap_right {α : Type} {l : List α} {i j : Nat}
    (hi : i < l.length) (hj : j < l.length) : (swap l i j)[j]? = l[i]? := by
  obtain ⟨a, ha⟩ : ∃ a, l[i]? = some a := ⟨_, List.getElem?_eq_getElem hi⟩
  obtain ⟨b, hb⟩ : ∃ b, l[j]? = some b := ⟨_, List.getElem?_eq_getElem hj⟩
  unfold swap
  rw [ha, hb]
  show ((l.set i b).set j a)[j]? = some a
  rw [List.getElem?_set_self (by simpa using hj)]

theorem getElem?_swap_other {α : Type} {l : List α} {i j k : Nat}
    (hki : k ≠ i) (hkj : k ≠ j) : (swap l i j)[k]? = l[k]? := by
  unfold swap
  cases ha : l[i]? <;> cases hb : l[j]? <;> try rfl
  rw [List.getElem?_set_ne (by omega), List.getElem?_set_ne (by omega)]

end DAryHeap

namespace DAryHeap

theorem minChildStep_eq {α : Type} (cmp : α → α → Int) {l : List α}
    {mi ci : Nat} {mv cv : α} (hm : l[mi]? = some mv) (hcv : l[ci]? = some cv) :
    minChildStep cmp l mi ci = if isLessThan cmp cv mv then ci else mi := by
  unfold minChildStep
  rw [hcv, hm]

/-- The `reduce` of `sinkDown` finds a comparator-minimal element among the
initial index and the scanned indices: nothing in the scanned block is
`isLessThan` the element at the resulting index. -/
theorem minChild_min {α : Type} (cmp : α → α → Int) (hc : LawfulCmp cmp)
    (l : List α) :
    ∀ (cs : List Nat) (c₀ : Nat), c₀ < l.length → (∀ x ∈ cs, x < l.length) →
      ∀ c ∈ c₀ :: cs, ∀ cv mv, l[c]? = some cv →
        l[minChild cmp l cs c₀]? = some mv → ¬ 0 < cmp cv mv := by
  intro cs
  induction cs with
  | nil =>
    intro c₀ h₀ _ c hcmem cv mv hcv hmv
    simp only [minChild, List.foldl_nil] at hmv
    have : c = c₀ := by simpa using hcmem
    subst this
    have : cv = mv := Option.some.inj (hcv.symm.trans hmv)
    subst this
    exact hc.irrefl cv
  | cons c₁ cs ih =>
    intro c₀ h₀ hbnd c hcmem cv mv hcv hmv
    have h₁ : c₁ < l.length := hbnd c₁ (List.mem_cons_self _ _)
    obtain ⟨v₀, hv₀⟩ : ∃ v, l[c₀]? = some v := ⟨_, List.getElem?_eq_getElem h₀⟩
    obtain ⟨v₁, hv₁⟩ : ∃ v, l[c₁]? = some v := ⟨_, List.getElem?_eq_getElem h₁⟩
    have hstep := minChildStep_eq cmp hv₀ hv₁
    have hmv' : l[minChild cmp l cs (minChildStep cmp l c₀ c₁)]? = some mv := by
      simpa only [minChild, List.foldl_cons] using hmv
    have hbnd' : ∀ x ∈ cs, x < l.length := fun x hx => hbnd x (List.mem_cons_of_mem _ hx)
    have hstep_lt : minChildStep cmp l c₀ c₁ < l.length := by
      rcases minChildStep_choice cmp l c₀ c₁ with h | h <;> rw [h] <;> assumption
    have ihx := ih (minChildStep cmp l c₀ c₁) hstep_lt hbnd'
    by_cases hlt : isLessThan cmp v₁ v₀ = true
    · rw [if_pos hlt] at hstep
      have hlt' : 0 < cmp v₁ v₀ := (isLessThan_true_iff cmp v₁ v₀).mp hlt
      have h1 : ¬ 0 < cmp v₁ mv :=
        ihx (minChildStep cmp l c₀ c₁) (List.mem_cons_self _ _) v₁ mv
          (by rw [hstep]; exact hv₁) hmv'
      rcases List.mem_cons.mp hcmem with rfl | hcm
      · have hcveq : cv = v₀ := Option.some.inj (hcv.symm.trans hv₀)
        intro habs
        rw [hcveq] at habs
        exact h1 (hc.lt_trans v₁ v₀ mv hlt' habs)
      · rcases List.mem_cons.mp hcm with rfl | hcm2
        · have hcveq : cv = v₁ := Option.some.inj (hcv.symm.trans hv₁)
          rw [hcveq]
          exact h1
        · exact ihx c (List.mem_cons_of_mem _ hcm2) cv mv hcv hmv'
    · rw [if_neg hlt] at hstep
      have hnlt : ¬ 0 < cmp v₁ v₀ := fun habs =>
        hlt ((isLessThan_true_iff cmp v₁ v₀).mpr habs)
      have h0 : ¬ 0 < cmp v₀ mv :=
        ihx (minChildStep cmp l c₀ c₁) (List.mem_cons_self _ _) v₀ mv
          (by rw [hstep]; exact hv₀) hmv'
      rcases List.mem_cons.mp hcmem with rfl | hcm
      · have hcveq : cv = v₀ := Option.some.inj (hcv.symm.trans hv₀)
        rw [hcveq]
        exact h0
      · rcases List.mem_cons.mp hcm with rfl | hcm2
        · have hcveq : cv = v₁ := Option.some.inj (hcv.symm.trans hv₁)
          rw [hcveq]
          exact hc.nlt_trans v₁ v₀ mv hnlt h0
        · exact ihx c (List.mem_cons_of_mem _ hcm2) cv mv hcv hmv'

end DAryHeap

namespace DAryHeap

theorem getElem?_append_lt {α : Type} {l l' : List α} {i : Nat}
    (h : i < l.length) : (l ++ l')[i]? = l[i]? := by
  rw [List.getElem?_append, if_pos h]

/-- One unfolding of `swimUp` when the current value is `isLessThan` its
parent: swap and continue from the parent. -/
theorem swimUp_step_lt {α : Type} {cmp : α → α → Int} {d : Nat} {l : List α}
    {j : Nat} {v pv : α} (hj : j ≠ 0) (hv : l[j]? = some v)
    (hpv : l[parentIndex d j]? = some pv) (hlt : isLessThan cmp v pv = true) :
    swimUp cmp d l j =
      swimUp cmp d (swap l j (parentIndex d j)) (parentIndex d j) := by
  rw [swimUp_eq, if_neg hj, hv, hpv]
  show (if isLessThan cmp v pv then
      swimUp cmp d (swap l j (parentIndex d j)) (parentIndex d j)
    else Except.ok (l, j)) = _
  rw [if_pos hlt]

/-- One unfolding of `swimUp` when the current value is in place: stop. -/
theorem swimUp_step_ge {α : Type} {cmp : α → α → Int} {d : Nat} {l : List α}
    {j : Nat} {v pv : α} (hj : j ≠ 0) (hv : l[j]? = some v)
    (hpv : l[parentIndex d j]? = some pv) (hlt : isLessThan cmp v pv = false) :
    swimUp cmp d l j = .ok (l, j) := by
  rw [swimUp_eq, if_neg hj, hv, hpv]
  show (if isLessThan cmp v pv then
      swimUp cmp d (swap l j (parentIndex d j)) (parentIndex d j)
    else Except.ok (l, j)) = _
  rw [if_neg (by rw [hlt]; exact Bool.false_ne_true)]

/-- Precondition of `swimUp(j)`: every in-bounds parent/child pair whose
child is not `j` is ordered, and (skip level) every child of `j` is already
ordered against `j`'s parent. -/
def UpOk {α : Type} (cmp : α → α → Int) (d : Nat) (l : List α) (j : Nat) : Prop :=
  (∀ i c, IsChild d i c → c < l.length → c ≠ j →
    ∀ a b, l[i]? = some a → l[c]? = some b → ¬ 0 < cmp b a) ∧
  (j ≠ 0 → ∀ c, IsChild d j c → c < l.length →
    ∀ p b, l[parentIndex d j]? = some p → l[c]? = some b → ¬ 0 < cmp b p)

/-- `swimUp(j)` from a state satisfying `UpOk` succeeds and fully restores the
heap-order property. -/
theorem swimUp_inv {α : Type} {cmp : α → α → Int} (hc : LawfulCmp cmp)
    {d : Nat} (hd : 1 ≤ d) :
    ∀ (j : Nat) (l : List α), (j = 0 ∨ j < l.length) → UpOk cmp d l j →
      ∃ l₂ j₂, swimUp cmp d l j = .ok (l₂, j₂) ∧ l₂.length = l.length ∧
        Inv cmp d l₂ := by
  intro j
  induction j using Nat.strong_induction_on with
  | _ j ih =>
    intro l hj hok
    by_cases hj0 : j = 0
    · subst hj0
      refine ⟨l, 0, rfl, rfl, ?_⟩
      intro i c hic hcl _ a b ha hb
      exact hok.1 i c hic hcl (isChild_pos hic) a b ha hb
    · have hjl : j < l.length := hj.resolve_left hj0
      have hpjlt : parentIndex d j < j := parentIndex_lt hj0
      have hpjl : parentIndex d j < l.length := lt_trans hpjlt hjl
      obtain ⟨v, hv⟩ : ∃ v, l[j]? = some v := ⟨_, List.getElem?_eq_getElem hjl⟩
      obtain ⟨pv, hpv⟩ : ∃ v, l[parentIndex d j]? = some v :=
        ⟨_, List.getElem?_eq_getElem hpjl⟩
      by_cases hlt : isLessThan cmp v pv = true
      · rw [swimUp_step_lt hj0 hv hpv hlt]
        have hlt' : 0 < cmp v pv := (isLessThan_true_iff cmp v pv).mp hlt
        set p := parentIndex d j with hp
        set l' := swap l j p with hl'
        have hlen' : l'.length = l.length := swap_length l j p
        have hv'j : l'[j]? = some pv := by
          rw [hl', getElem?_swap_left hjl hpjl]; exact hpv
        have hv'p : l'[p]? = some v := by
          rw [hl', getElem?_swap_right hjl hpjl]; exact hv
        have hother : ∀ k, k ≠ j → k ≠ p → l'[k]? = l[k]? := fun k h1 h2 => by
          rw [hl', getElem?_swap_other h1 h2]
        have huok : UpOk cmp d l' p := by
          constructor
          · intro i c hic hcl hcp a b ha hb
            have hcl0 : c < l.length := by rw [← hlen']; exact hcl
            by_cases hcj : c = j
            · rw [hcj] at hic hb
              have hip : i = p := by rw [hp]; exact isChild_parent hic
              rw [hip] at ha
              have hav : a = v := Option.some.inj (ha.symm.trans hv'p)
              have hbpv : b = pv := Option.some.inj (hb.symm.trans hv'j)
              rw [hav, hbpv]
              have := (hc.flip v pv).mp hlt'
              omega
            · by_cases hij : i = j
              · subst hij
                have hapv : a = pv := Option.some.inj (ha.symm.trans hv'j)
                have hbold : l[c]? = some b := by
                  rw [← hother c hcj hcp]; exact hb
                rw [hapv]
                exact hok.2 hj0 c hic hcl0 pv b hpv hbold
              · by_cases hipp : i = p
                · rw [hipp] at hic ha
                  have hav : a = v := Option.some.inj (ha.symm.trans hv'p)
                  have hbold : l[c]? = some b := by
                    rw [← hother c hcj hcp]; exact hb
                  rw [hav]
                  intro habs
                  exact hok.1 p c hic hcl0 hcj pv b hpv hbold
                    (hc.lt_trans b v pv habs hlt')
                · have haold : l[i]? = some a := by
                    rw [← hother i hij hipp]; exact ha
                  have hbold : l[c]? = some b := by
                    rw [← hother c hcj hcp]; exact hb
                  exact hok.1 i c hic hcl0 hcj a b haold hbold
          · intro hp0 c hpc hcl pp b hpp hb
            have hcl0 : c < l.length := by rw [← hlen']; exact hcl
            have hpplt : parentIndex d p < p := parentIndex_lt hp0
            have hppj : parentIndex d p ≠ j := by omega
            have hppp : parentIndex d p ≠ p := by omega
            have hppold : l[parentIndex d p]? = some pp := by
              rw [← hother _ hppj hppp]; exact hpp
            have hppc : IsChild d (parentIndex d p) p := parent_isChild hd hp0
            have hnp : ¬ 0 < cmp pv pp :=
              hok.1 (parentIndex d p) p hppc hpjl (by omega) pp pv hppold hpv
            by_cases hcj : c = j
            · subst hcj
              have hbpv : b = pv := Option.some.inj (hb.symm.trans hv'j)
              rw [hbpv]
              exact hnp
            · have hcp : c ≠ p := by have := isChild_lt hpc; omega
              have hbold : l[c]? = some b := by rw [← hother c hcj hcp]; exact hb
              have h1 : ¬ 0 < cmp b pv := hok.1 p c hpc hcl0 hcj pv b hpv hbold
              exact hc.nlt_trans b pv pp h1 hnp
        obtain ⟨l₂, j₂, heq, hlen₂, hinv⟩ := ih p hpjlt l'
          (Or.inr (by rw [hlen']; exact hpjl)) huok
        exact ⟨l₂, j₂, heq, by rw [hlen₂, hlen'], hinv⟩
      · have hltf : isLessThan cmp v pv = false := by
          cases h : isLessThan cmp v pv
          · rfl
          · exact absurd h hlt
        rw [swimUp_step_ge hj0 hv hpv hltf]
        refine ⟨l, j, rfl, rfl, ?_⟩
        intro i c hic hcl _ a b ha hb
        by_cases hcj : c = j
        · rw [hcj] at hic hb
          have hip : i = parentIndex d j := isChild_parent hic
          rw [hip] at ha
          have hav : a = pv := Option.some.inj (ha.symm.trans hpv)
          have hbv : b = v := Option.some.inj (hb.symm.trans hv)
          rw [hav, hbv]
          exact fun habs => hlt ((isLessThan_true_iff cmp v pv).mpr habs)
        · exact hok.1 i c hic hcl hcj a b ha hb

/-- `insert` from a valid heap succeeds and restores the heap-order
property on the grown array. -/
theorem insert_inv {α : Type} {cmp : α → α → Int} (hc : LawfulCmp cmp)
    {d : Nat} (hd : 1 ≤ d) (l : List α) (value : α) (hinv : Inv cmp d l) :
    ∃ l₂ j₂, insert cmp d l value = .ok (l₂, j₂) ∧
      l₂.length = l.length + 1 ∧ Inv cmp d l₂ := by
  unfold insert
  have hlen : (l ++ [value]).length = l.length + 1 := by simp
  have hj : (l ++ [value]).length - 1 = l.length := by simp
  rw [hj]
  have huok : UpOk cmp d (l ++ [value]) l.length := by
    constructor
    · intro i c hic hcl hcj a b ha hb
      have hclen : c < l.length := by
        rw [hlen] at hcl
        omega
      have hilen : i < l.length := by
        have := isChild_lt hic
        omega
      have ha' : l[i]? = some a := by rw [← getElem?_append_lt hilen]; exact ha
      have hb' : l[c]? = some b := by rw [← getElem?_append_lt hclen]; exact hb
      exact hinv i c hic hclen (Nat.zero_le i) a b ha' hb'
    · intro hj0 c hjc hcl p b hp hb
      exfalso
      have h1 := isChild_lt hjc
      rw [hlen] at hcl
      omega
  obtain ⟨l₂, j₂, heq, hlen₂, hinv₂⟩ := swimUp_inv hc hd l.length (l ++ [value])
    (Or.inr (by simp)) huok
  exact ⟨l₂, j₂, heq, by rw [hlen₂, hlen], hinv₂⟩

end DAryHeap

namespace DAryHeap

theorem isLessThan_false_iff {α : Type} (cmp : α → α → Int) (a b : α) :
    isLessThan cmp a b = false ↔ ¬ 0 < cmp a b := by
  simp [isLessThan]

theorem sinkDownGo_leaf {α : Type} {cmp : α → α → Int} {d : Nat} {l : List α}
    {j : Nat} (fuel : Nat) (hcs : childIndices d l.length j = []) :
    sinkDownGo cmp d fuel l j = (l, j) := by
  rw [sinkDownGo.eq_def, hcs]

theorem sinkDownGo_stop {α : Type} {cmp : α → α → Int} {d : Nat} {l : List α}
    {j c₀ : Nat} {rest : List Nat} {v mv : α} (fuel : Nat)
    (hcs : childIndices d l.length j = c₀ :: rest)
    (hv : l[j]? = some v) (hmv : l[minChild cmp l (c₀ :: rest) c₀]? = some mv)
    (hlt : isLessThan cmp v mv = true) :
    sinkDownGo cmp d fuel l j = (l, j) := by
  rw [sinkDownGo.eq_def, hcs]
  show (match l[j]?, l[minChild cmp l (c₀ :: rest) c₀]? with
    | some v, some mv =>
      if isLessThan cmp v mv = true then (l, j)
      else
        match fuel with
        | 0 => (l, j)
        | fuel' + 1 =>
          sinkDownGo cmp d fuel' (swap l j (minChild cmp l (c₀ :: rest) c₀))
            (minChild cmp l (c₀ :: rest) c₀)
    | _, _ => (l, j)) = (l, j)
  rw [hv, hmv]
  show (if isLessThan cmp v mv = true then (l, j)
    else match fuel with
    | 0 => (l, j)
    | fuel' + 1 =>
      sinkDownGo cmp d fuel' (swap l j (minChild cmp l (c₀ :: rest) c₀))
        (minChild cmp l (c₀ :: rest) c₀)) = (l, j)
  rw [if_pos hlt]

theorem sinkDownGo_swap {α : Type} {cmp : α → α → Int} {d : Nat} {l : List α}
    {j c₀ : Nat} {rest : List Nat} {v mv : α} (fuel : Nat)
    (hcs : childIndices d l.length j = c₀ :: rest)
    (hv : l[j]? = some v) (hmv : l[minChild cmp l (c₀ :: rest) c₀]? = some mv)
    (hlt : isLessThan cmp v mv = false) :
    sinkDownGo cmp d (fuel + 1) l j =
      sinkDownGo cmp d fuel (swap l j (minChild cmp l (c₀ :: rest) c₀))
        (minChild cmp l (c₀ :: rest) c₀) := by
  rw [sinkDownGo.eq_def, hcs]
  show (match l[j]?, l[minChild cmp l (c₀ :: rest) c₀]? with
    | some v, some mv =>
      if isLessThan cmp v mv = true then (l, j)
      else sinkDownGo cmp d fuel (swap l j (minChild cmp l (c₀ :: rest) c₀))
        (minChild cmp l (c₀ :: rest) c₀)
    | _, _ => (l, j)) = _
  rw [hv, hmv]
  show (if isLessThan cmp v mv = true then (l, j)
      else sinkDownGo cmp d fuel (swap l j (minChild cmp l (c₀ :: rest) c₀))
        (minChild cmp l (c₀ :: rest) c₀)) = _
  rw [if_neg (by rw [hlt]; exact Bool.false_ne_true)]

/-- Precondition of `sinkDown(j)` relative to a threshold `t ≤ j`: every
in-bounds pair with parent index `≥ t` other than those parented at `j` is
ordered, and (skip level) if `j`'s own parent is `≥ t` then `j`'s children
are already ordered against it. -/
def DownOk {α : Type} (cmp : α → α → Int) (d t : Nat) (l : List α) (j : Nat) :
    Prop :=
  (∀ i c, IsChild d i c → c < l.length → t ≤ i → i ≠ j →
    ∀ a b, l[i]? = some a → l[c]? = some b → ¬ 0 < cmp b a) ∧
  (j ≠ 0 → t ≤ parentIndex d j → ∀ c, IsChild d j c → c < l.length →
    ∀ p b, l[parentIndex d j]? = some p → l[c]? = some b → ¬ 0 < cmp b p)

/-- `sinkDown(j)` (with sufficient fuel) from a state satisfying `DownOk`
restores the heap-order property above the threshold. -/
theorem sinkDownGo_inv {α : Type} {cmp : α → α → Int} (hc : LawfulCmp cmp)
    {d : Nat} (t : Nat) :
    ∀ (fuel : Nat) (l : List α) (j : Nat), l.length - j ≤ fuel → t ≤ j →
      DownOk cmp d t l j →
      (sinkDownGo cmp d fuel l j).1.length = l.length ∧
        InvFrom cmp d t (sinkDownGo cmp d fuel l j).1 := by
  intro fuel
  induction fuel with
  | zero =>
    intro l j hfuel ht hok
    have hempty : childIndices d l.length j = [] := childIndices_empty l (by omega)
    rw [sinkDownGo_leaf 0 hempty]
    refine ⟨rfl, ?_⟩
    show InvFrom cmp d t l
    intro i c hic hcl hti a b ha hb
    by_cases hij : i = j
    · exfalso
      rw [hij] at hic
      have h1 := isChild_lt hic
      omega
    · exact hok.1 i c hic hcl hti hij a b ha hb
  | succ fuel ih =>
    intro l j hfuel ht hok
    cases hcs : childIndices d l.length j with
    | nil =>
      rw [sinkDownGo_leaf (fuel + 1) hcs]
      refine ⟨rfl, ?_⟩
      show InvFrom cmp d t l
      intro i c hic hcl hti a b ha hb
      by_cases hij : i = j
      · exfalso
        rw [hij] at hic
        obtain ⟨k, hk1, hk2, hkc⟩ := hic
        have h3 : d * j + k < l.length := by rw [← hkc]; exact hcl
        have hmem : d * j + k ∈ childIndices d l.length j :=
          childIndices_complete hk1 hk2 h3
        rw [hcs] at hmem
        cases hmem
      · exact hok.1 i c hic hcl hti hij a b ha hb
    | cons c₀ rest =>
      obtain ⟨hjm, hml, hmk⟩ := childIndices_mem (minChild_mem_childIndices cmp l hcs)
      have hjl : j < l.length := lt_trans hjm hml
      obtain ⟨v, hv⟩ : ∃ v, l[j]? = some v := ⟨_, List.getElem?_eq_getElem hjl⟩
      obtain ⟨mv, hmv⟩ : ∃ w, l[minChild cmp l (c₀ :: rest) c₀]? = some w :=
        ⟨_, List.getElem?_eq_getElem hml⟩
      have hmin : ∀ c ∈ childIndices d l.length j, ∀ cv, l[c]? = some cv →
          ¬ 0 < cmp cv mv := by
        intro c hcmem cv hcv
        have hbnd : ∀ x ∈ c₀ :: rest, x < l.length := by
          intro x hx
          rw [← hcs] at hx
          exact (childIndices_mem hx).2.1
        have hcz : c₀ < l.length := hbnd c₀ (List.mem_cons_self _ _)
        rw [hcs] at hcmem
        exact minChild_min cmp hc l (c₀ :: rest) c₀ hcz hbnd c
          (List.mem_cons_of_mem _ hcmem) cv mv hcv hmv
      have hmemx : ∀ {i c : Nat}, IsChild d i c → c < l.length → i = j →
          c ∈ childIndices d l.length j := by
        intro i c hic hcl hij
        rw [hij] at hic
        obtain ⟨k, hk1, hk2, hkc⟩ := hic
        have h3 : d * j + k < l.length := by rw [← hkc]; exact hcl
        rw [hkc]
        exact childIndices_complete hk1 hk2 h3
      by_cases hlt : isLessThan cmp v mv = true
      · rw [sinkDownGo_stop (fuel + 1) hcs hv hmv hlt]
        refine ⟨rfl, ?_⟩
        intro i c hic hcl hti a b ha hb
        by_cases hij : i = j
        · have hcmem := hmemx hic hcl hij
          rw [hij] at ha
          have hav : a = v := Option.some.inj (ha.symm.trans hv)
          have h1 : ¬ 0 < cmp b mv := hmin c hcmem b hb
          rw [hav]
          intro habs
          exact h1 (hc.lt_trans b v mv habs
            ((isLessThan_true_iff cmp v mv).mp hlt))
        · exact hok.1 i c hic hcl hti hij a b ha hb
      · have hltf : isLessThan cmp v mv = false := by
          cases h : isLessThan cmp v mv
          · rfl
          · exact absurd h hlt
        have hnlt : ¬ 0 < cmp v mv := (isLessThan_false_iff cmp v mv).mp hltf
        rw [sinkDownGo_swap fuel hcs hv hmv hltf]
        have hmchild : IsChild d j (minChild cmp l (c₀ :: rest) c₀) := hmk
        generalize hM : minChild cmp l (c₀ :: rest) c₀ = M at hjm hml hmchild hmv ⊢
        have hlen' : (swap l j M).length = l.length := swap_length l j M
        have hv'j : (swap l j M)[j]? = some mv := by
          rw [getElem?_swap_left hjl hml]; exact hmv
        have hv'M : (swap l j M)[M]? = some v := by
          rw [getElem?_swap_right hjl hml]; exact hv
        have hother : ∀ k, k ≠ j → k ≠ M → (swap l j M)[k]? = l[k]? :=
          fun k h1 h2 => getElem?_swap_other h1 h2
        have hok' : DownOk cmp d t (swap l j M) M := by
          constructor
          · intro i c hic hcl hti hiM a b ha hb
            have hcl0 : c < l.length := by rw [← hlen']; exact hcl
            by_cases hij : i = j
            · have hcmem : c ∈ childIndices d l.length j := hmemx hic hcl0 hij
              rw [hij] at ha
              have hamv : a = mv := Option.some.inj (ha.symm.trans hv'j)
              rw [hamv]
              by_cases hcM : c = M
              · rw [hcM] at hb
                have hbv : b = v := Option.some.inj (hb.symm.trans hv'M)
                rw [hbv]
                exact hnlt
              · have hbold : l[c]? = some b := by
                  rw [← hother c (by rw [← hij]; exact (Nat.ne_of_lt (isChild_lt hic)).symm) hcM]
                  exact hb
                exact hmin c hcmem b hbold
            · by_cases hcj : c = j
              · rw [hcj] at hic hb
                have hbmv : b = mv := Option.some.inj (hb.symm.trans hv'j)
                have hij0 : j ≠ 0 := isChild_pos hic
                have hip : i = parentIndex d j := isChild_parent hic
                have haold : l[i]? = some a := by
                  rw [← hother i hij hiM]; exact ha
                rw [hip] at haold
                rw [hbmv]
                exact hok.2 hij0 (by rw [← hip]; exact hti) M hmchild hml a mv
                  haold hmv
              · by_cases hcM : c = M
                · exfalso
                  rw [hcM] at hic
                  have h1 : i = parentIndex d M := isChild_parent hic
                  have h2 : j = parentIndex d M := isChild_parent hmchild
                  rw [← h2] at h1
                  exact hij h1
                · have haold : l[i]? = some a := by
                    rw [← hother i hij hiM]; exact ha
                  have hbold : l[c]? = some b := by
                    rw [← hother c hcj hcM]; exact hb
                  exact hok.1 i c hic hcl0 hti hij a b haold hbold
          · intro hM0 htpM c hMc hcl p b hp hb
            have hcl0 : c < l.length := by rw [← hlen']; exact hcl
            have hpM : parentIndex d M = j := (isChild_parent hmchild).symm
            rw [hpM] at hp
            have hpmv : p = mv := Option.some.inj (hp.symm.trans hv'j)
            have hcM : c ≠ M := (Nat.ne_of_lt (isChild_lt hMc)).symm
            have hcj : c ≠ j := by
              have := isChild_lt hMc
              omega
            have hbold : l[c]? = some b := by
              rw [← hother c hcj hcM]; exact hb
            rw [hpmv]
            exact hok.1 M c hMc hcl0 (by omega) (by omega) mv b hmv hbold
        have hres := ih (swap l j M) M (by rw [hlen']; omega) (by omega) hok'
        refine ⟨?_, hres.2⟩
        rw [hres.1, hlen']

/-- `sinkDown(j)` proper, from a state satisfying `DownOk`. -/
theorem sinkDown_inv {α : Type} {cmp : α → α → Int} (hc : LawfulCmp cmp)
    {d : Nat} (t : Nat) (l : List α) (j : Nat) (ht : t ≤ j)
    (hok : DownOk cmp d t l j) :
    (sinkDown cmp d l j).1.length = l.length ∧
      InvFrom cmp d t (sinkDown cmp d l j).1 :=
  sinkDownGo_inv hc t (l.length - j) l j (le_refl _) ht hok

end DAryHeap

namespace DAryHeap

theorem inv_nil {α : Type} {cmp : α → α → Int} {d : Nat} :
    Inv cmp d ([] : List α) := by
  intro i c hic hcl _ a b ha hb
  simp at hcl

theorem getElem?_dropLast_lt {α : Type} {l : List α} {i : Nat}
    (h : i < l.length - 1) : l.dropLast[i]? = l[i]? := by
  have h1 : i < l.dropLast.length := by rw [List.length_dropLast]; exact h
  have h2 : i < l.length := by omega
  rw [List.getElem?_eq_getElem h1, List.getElem?_eq_getElem h2]
  exact congrArg some (List.getElem_dropLast l i h1)

/-- `poll()` from a valid heap leaves a valid heap one element shorter. -/
theorem poll_inv {α : Type} {cmp : α → α → Int} (hc : LawfulCmp cmp)
    {d : Nat} (l : List α) (hinv : Inv cmp d l) :
    (poll cmp d l).2.length = l.length - 1 ∧ Inv cmp d (poll cmp d l).2 := by
  unfold poll
  by_cases hz : l.length = 0
  · rw [if_pos hz]
    exact ⟨by show l.length = l.length - 1; omega, hinv⟩
  · rw [if_neg hz]
    set L := (swap l 0 (l.length - 1)).dropLast with hL
    have hLlen : L.length = l.length - 1 := by
      rw [hL, List.length_dropLast, swap_length]
    have hx1 : ∀ x, x < l.length - 1 → x ≠ 0 → L[x]? = l[x]? := by
      intro x hxl hx0
      rw [hL, getElem?_dropLast_lt (by rw [swap_length]; exact hxl),
        getElem?_swap_other hx0 (by omega)]
    have hok : DownOk cmp d 0 L 0 := by
      constructor
      · intro i c hic hcl _ hij a b ha hb
        have hcL : c < l.length - 1 := by rw [← hLlen]; exact hcl
        have hiL : i < l.length - 1 := lt_trans (isChild_lt hic) hcL
        have hcz : c ≠ 0 := isChild_pos hic
        have ha' : l[i]? = some a := by rw [← hx1 i hiL hij]; exact ha
        have hb' : l[c]? = some b := by rw [← hx1 c hcL hcz]; exact hb
        exact hinv i c hic (by omega) (Nat.zero_le _) a b ha' hb'
      · intro habs
        exact absurd rfl habs
    have hres := sinkDown_inv hc 0 L 0 (le_refl _) hok
    refine ⟨?_, ?_⟩
    · show (sinkDown cmp d L 0).1.length = l.length - 1
      rw [hres.1]
      exact hLlen
    · show Inv cmp d (sinkDown cmp d L 0).1
      exact hres.2

/-- The `heapify` loop, from its loop invariant: once every parent index
above `i` is in heap order, running the loop down from `i` yields a valid
heap. -/
theorem heapifyGo_inv {α : Type} {cmp : α → α → Int} (hc : LawfulCmp cmp)
    {d : Nat} :
    ∀ (i : Nat) (l : List α), InvFrom cmp d (i + 1) l →
      (heapifyGo cmp d i l).length = l.length ∧
        Inv cmp d (heapifyGo cmp d i l) := by
  intro i
  induction i with
  | zero =>
    intro l hinv
    have hok : DownOk cmp d 0 l 0 := by
      constructor
      · intro i c hic hcl _ hij a b ha hb
        exact hinv i c hic hcl (by omega) a b ha hb
      · intro h0
        exact absurd rfl h0
    exact sinkDown_inv hc 0 l 0 (le_refl 0) hok
  | succ i ih =>
    intro l hinv
    have hok : DownOk cmp d (i + 1) l (i + 1) := by
      constructor
      · intro i' c hic hcl hti hij a b ha hb
        exact hinv i' c hic hcl (by omega) a b ha hb
      · intro _ htp
        exfalso
        have := @parentIndex_lt d (i + 1) (by omega)
        omega
    have hstep := sinkDown_inv hc (i + 1) l (i + 1) (le_refl _) hok
    have hih := ih (sinkDown cmp d l (i + 1)).1 hstep.2
    refine ⟨?_, hih.2⟩
    show (heapifyGo cmp d i (sinkDown cmp d l (i + 1)).1).length = l.length
    rw [hih.1, hstep.1]

/-- `heapify(values)` produces a valid heap over exactly the given values
array. -/
theorem heapify_inv {α : Type} {cmp : α → α → Int} (hc : LawfulCmp cmp)
    {d : Nat} (hd : 1 ≤ d) (values : List α) :
    (heapify cmp d values).length = values.length ∧
      Inv cmp d (heapify cmp d values) := by
  unfold heapify
  by_cases hle : values.length ≤ 1
  · rw [if_pos hle]
    refine ⟨rfl, ?_⟩
    intro i c hic hcl _ a b ha hb
    exfalso
    have h1 := isChild_lt hic
    omega
  · rw [if_neg hle]
    apply heapifyGo_inv hc
    intro i c hic hcl hti a b ha hb
    exfalso
    obtain ⟨k, hk1, hk2, hkc⟩ := hic
    have hq := Nat.div_add_mod (values.length - 2) d
    have hr : (values.length - 2) % d < d := Nat.mod_lt _ (by omega)
    have hpeq : parentIndex d (values.length - 1) = (values.length - 2) / d := rfl
    have hti' : (values.length - 2) / d + 1 ≤ i := by
      rw [hpeq] at hti
      omega
    have hmul : d * ((values.length - 2) / d + 1) ≤ d * i :=
      Nat.mul_le_mul_left d hti'
    rw [Nat.mul_add, Nat.mul_one] at hmul
    generalize hA : d * ((values.length - 2) / d) = A at hq hmul
    generalize hB : d * i = B at hmul hkc
    generalize hC : (values.length - 2) % d = C at hq hr
    omega

/-- Precondition left by the swap-and-pop prefix of `removeAtIndex(j)`:
every in-bounds pair not involving `j` is ordered, and (skip level) the
children of `j` are ordered against `j`'s parent. -/
def RemOk {α : Type} (cmp : α → α → Int) (d : Nat) (l : List α) (j : Nat) :
    Prop :=
  (∀ i c, IsChild d i c → c < l.length → i ≠ j → c ≠ j →
    ∀ a b, l[i]? = some a → l[c]? = some b → ¬ 0 < cmp b a) ∧
  (j ≠ 0 → ∀ c, IsChild d j c → c < l.length →
    ∀ p b, l[parentIndex d j]? = some p → l[c]? = some b → ¬ 0 < cmp b p)

/-- A full heap is in particular a valid start state for `sinkDown` at any
index. -/
theorem downOk_of_inv {α : Type} {cmp : α → α → Int} (hc : LawfulCmp cmp)
    {d : Nat} (hd : 1 ≤ d) (l : List α) (j : Nat) (hinv : Inv cmp d l) :
    DownOk cmp d 0 l j := by
  constructor
  · intro i c hic hcl _ _ a b ha hb
    exact hinv i c hic hcl (Nat.zero_le i) a b ha hb
  · intro hj0 _ c hjc hcl p b hp hb
    have hjlt : j < l.length := lt_trans (isChild_lt hjc) hcl
    obtain ⟨w, hw⟩ : ∃ w, l[j]? = some w := ⟨_, List.getElem?_eq_getElem hjlt⟩
    have h1 : ¬ 0 < cmp w p :=
      hinv (parentIndex d j) j (parent_isChild hd hj0) hjlt (Nat.zero_le _) p w hp hw
    have h2 : ¬ 0 < cmp b w := hinv j c hjc hcl (Nat.zero_le _) w b hw hb
    exact hc.nlt_trans b w p h2 h1

/-- The `swimUp` - then - `sinkDown` tail of `removeAtIndex`, from `RemOk`:
the swim succeeds and the subsequent sink restores the full heap order. -/
theorem swimSink_inv {α : Type} {cmp : α → α → Int} (hc : LawfulCmp cmp)
    {d : Nat} (hd : 1 ≤ d) (l : List α) (j : Nat) (hj : j = 0 ∨ j < l.length)
    (hok : RemOk cmp d l j) :
    ∃ l₃ j₃, swimUp cmp d l j = .ok (l₃, j₃) ∧ l₃.length = l.length ∧
      (sinkDown cmp d l₃ j).1.length = l.length ∧
      Inv cmp d (sinkDown cmp d l₃ j).1 := by
  by_cases hj0 : j = 0
  · subst hj0
    have hd0 : DownOk cmp d 0 l 0 := by
      constructor
      · intro i c hic hcl _ hij a b ha hb
        exact hok.1 i c hic hcl hij (isChild_pos hic) a b ha hb
      · intro h0
        exact absurd rfl h0
    have hres := sinkDown_inv hc 0 l 0 (le_refl _) hd0
    exact ⟨l, 0, rfl, rfl, hres.1, hres.2⟩
  · have hjl : j < l.length := hj.resolve_left hj0
    have hpjlt : parentIndex d j < j := parentIndex_lt hj0
    have hpjl : parentIndex d j < l.length := lt_trans hpjlt hjl
    obtain ⟨v, hv⟩ : ∃ v, l[j]? = some v := ⟨_, List.getElem?_eq_getElem hjl⟩
    obtain ⟨pv, hpv⟩ : ∃ w, l[parentIndex d j]? = some w :=
      ⟨_, List.getElem?_eq_getElem hpjl⟩
    by_cases hlt : isLessThan cmp v pv = true
    · have hlt' : 0 < cmp v pv := (isLessThan_true_iff cmp v pv).mp hlt
      have huok : UpOk cmp d l j := by
        constructor
        · intro i c hic hcl hcj a b ha hb
          by_cases hij : i = j
          · rw [hij] at ha hic
            have hav : a = v := Option.some.inj (ha.symm.trans hv)
            rw [hav]
            intro habs
            exact hok.2 hj0 c hic hcl pv b hpv hb (hc.lt_trans b v pv habs hlt')
          · exact hok.1 i c hic hcl hij hcj a b ha hb
        · exact hok.2
      obtain ⟨l₂, j₂, heq, hlen₂, hinv₂⟩ := swimUp_inv hc hd j l (Or.inr hjl) huok
      have hd2 : DownOk cmp d 0 l₂ j := downOk_of_inv hc hd l₂ j hinv₂
      have hres := sinkDown_inv hc 0 l₂ j (Nat.zero_le j) hd2
      exact ⟨l₂, j₂, heq, hlen₂, by rw [hres.1, hlen₂], hres.2⟩
    · have hltf : isLessThan cmp v pv = false := by
        cases h : isLessThan cmp v pv
        · rfl
        · exact absurd h hlt
      have heq := swimUp_step_ge hj0 hv hpv hltf
      have hd2 : DownOk cmp d 0 l j := by
        constructor
        · intro i c hic hcl _ hij a b ha hb
          by_cases hcj : c = j
          · rw [hcj] at hic hb
            have hip : i = parentIndex d j := isChild_parent hic
            rw [hip] at ha
            have hav : a = pv := Option.some.inj (ha.symm.trans hpv)
            have hbv : b = v := Option.some.inj (hb.symm.trans hv)
            rw [hav, hbv]
            exact (isLessThan_false_iff cmp v pv).mp hltf
          · exact hok.1 i c hic hcl hij hcj a b ha hb
        · intro hj0' _
          exact hok.2 hj0'
      have hres := sinkDown_inv hc 0 l j (Nat.zero_le j) hd2
      exact ⟨l, j, heq, rfl, hres.1, hres.2⟩

/-- A successful `removeAtIndex` from a valid heap leaves a valid heap one
element shorter. -/
theorem removeAtIndex_inv {α : Type} {cmp : α → α → Int} (hc : LawfulCmp cmp)
    {d : Nat} (hd : 1 ≤ d) (l : List α) (idx : Nat) (hinv : Inv cmp d l)
    (hguard : idx < l.length ∨ (idx = 0 ∧ l.length = 0)) :
    ∀ l', removeAtIndex cmp d l idx = (none, l') →
      l'.length = l.length - 1 ∧ Inv cmp d l' := by
  intro l' heq
  rcases hguard with hidx | hempty
  · set L := (swap l idx (l.length - 1)).dropLast with hL
    have hLlen : L.length = l.length - 1 := by
      rw [hL, List.length_dropLast, swap_length]
    by_cases hmain : idx < l.length - 1
    · have hlast : l.length - 1 < l.length := by omega
      have hx1 : ∀ x, x < l.length - 1 → x ≠ idx → L[x]? = l[x]? := by
        intro x hxl hxi
        rw [hL, getElem?_dropLast_lt (by rw [swap_length]; exact hxl),
          getElem?_swap_other hxi (by omega)]
      have hrok : RemOk cmp d L idx := by
        constructor
        · intro i c hic hcl hii hci a b ha hb
          have hcL : c < l.length - 1 := by rw [← hLlen]; exact hcl
          have hiL : i < l.length - 1 := lt_trans (isChild_lt hic) hcL
          have ha' : l[i]? = some a := by rw [← hx1 i hiL hii]; exact ha
          have hb' : l[c]? = some b := by rw [← hx1 c hcL hci]; exact hb
          exact hinv i c hic (by omega) (Nat.zero_le _) a b ha' hb'
        · intro h0 c hjc hcl p b hp hb
          have hcL : c < l.length - 1 := by rw [← hLlen]; exact hcl
          have hcidx : c ≠ idx := by
            have := isChild_lt hjc
            omega
          have hpjlt : parentIndex d idx < idx := parentIndex_lt h0
          have hp' : l[parentIndex d idx]? = some p := by
            rw [← hx1 _ (by omega) (by omega)]; exact hp
          have hb' : l[c]? = some b := by rw [← hx1 c hcL hcidx]; exact hb
          obtain ⟨w, hw⟩ : ∃ w, l[idx]? = some w :=
            ⟨_, List.getElem?_eq_getElem hidx⟩
          have h1 : ¬ 0 < cmp w p :=
            hinv (parentIndex d idx) idx (parent_isChild hd h0) hidx
              (Nat.zero_le _) p w hp' hw
          have h2 : ¬ 0 < cmp b w :=
            hinv idx c hjc (by omega) (Nat.zero_le _) w b hw hb'
          exact hc.nlt_trans b w p h2 h1
      obtain ⟨l₃, j₃, hswim, hlen₃, hslen, hsinv⟩ :=
        swimSink_inv hc hd L idx (Or.inr (by rw [hLlen]; exact hmain)) hrok
      have h1 : removeAtIndex cmp d l idx = (none, (sinkDown cmp d l₃ idx).1) := by
        unfold removeAtIndex
        rw [← hL, hswim]
      rw [h1] at heq
      have h2 : (sinkDown cmp d l₃ idx).1 = l' := congrArg Prod.snd heq
      rw [← h2]
      exact ⟨by rw [hslen]; exact hLlen, hsinv⟩
    · have hidx1 : idx = l.length - 1 := by omega
      by_cases hone : l.length = 1
      · have hidx00 : idx = 0 := by omega
        subst hidx00
        have hL0 : L.length = 0 := by rw [hLlen]; omega
        have hrok : RemOk cmp d L 0 := by
          constructor
          · intro i c hic hcl hii hci a b ha hb
            exfalso
            rw [hL0] at hcl
            omega
          · intro h0
            exact absurd rfl h0
        obtain ⟨l₃, j₃, hswim, hlen₃, hslen, hsinv⟩ :=
          swimSink_inv hc hd L 0 (Or.inl rfl) hrok
        have h1 : removeAtIndex cmp d l 0 = (none, (sinkDown cmp d l₃ 0).1) := by
          unfold removeAtIndex
          rw [← hL, hswim]
        rw [h1] at heq
        have h2 : (sinkDown cmp d l₃ 0).1 = l' := congrArg Prod.snd heq
        rw [← h2]
        exact ⟨by rw [hslen]; exact hLlen, hsinv⟩
      · have hidx0' : idx ≠ 0 := by omega
        have hnone : L[idx]? = none := List.getElem?_eq_none (by omega)
        have herr : swimUp cmp d L idx = .error "Invalid inputs" := by
          rw [swimUp_eq, if_neg hidx0', hnone]
        have h1 : removeAtIndex cmp d l idx = (some "Invalid inputs", L) := by
          unfold removeAtIndex
          rw [← hL, herr]
        rw [h1] at heq
        exact Option.noConfusion (congrArg Prod.fst heq)
  · obtain ⟨hidx0, hlen0⟩ := hempty
    have hlnil : l = [] := List.length_eq_zero.mp hlen0
    subst hlnil
    subst hidx0
    have h1 : removeAtIndex cmp d ([] : List α) 0 =
        (none, (sinkDown cmp d ([] : List α) 0).1) := rfl
    have h2 : (sinkDown cmp d ([] : List α) 0).1 = [] := by
      show (sinkDownGo cmp d (([] : List α).length - 0) [] 0).1 = []
      rw [sinkDownGo_leaf (([] : List α).length - 0)
        (childIndices_empty [] (le_refl 0))]
    rw [h1] at heq
    have h3 : (sinkDown cmp d ([] : List α) 0).1 = l' := congrArg Prod.snd heq
    rw [← h3, h2]
    exact ⟨rfl, inv_nil⟩

/-- One successful API call preserves the heap-order property. -/
theorem step_inv {α : Type} {cmp : α → α → Int} (hc : LawfulCmp cmp)
    {d : Nat} (hd : 1 ≤ d) (l : List α) (op : Op α) (hinv : Inv cmp d l) :
    ∀ l', step cmp d l op = some l' → Inv cmp d l' := by
  intro l' hstep
  cases op with
  | insert v =>
    obtain ⟨l₂, j₂, heq, _, hinv₂⟩ := insert_inv hc hd l v hinv
    have hstep2 : step cmp d l (Op.insert v) = some l₂ := by
      show (match insert cmp d l v with
        | .ok (l1, _) => some l1
        | .error _ => none) = some l₂
      rw [heq]
    rw [hstep2] at hstep
    rw [← Option.some.inj hstep]
    exact hinv₂
  | poll =>
    have hres := poll_inv hc l hinv
    have hstep2 : step cmp d l Op.poll = some (poll cmp d l).2 := rfl
    rw [hstep2] at hstep
    rw [← Option.some.inj hstep]
    exact hres.2
  | removeAt i =>
    have hstep2 : step cmp d l (Op.removeAt i) =
        (if i < l.length ∨ (i = 0 ∧ l.length = 0) then
          match removeAtIndex cmp d l i with
          | (none, l1) => some l1
          | (some _, _) => none
        else none) := rfl
    rw [hstep2] at hstep
    by_cases hg : i < l.length ∨ (i = 0 ∧ l.length = 0)
    · rw [if_pos hg] at hstep
      cases hra : removeAtIndex cmp d l i with
      | mk o l1 =>
        rw [hra] at hstep
        cases o with
        | none =>
          have hres := removeAtIndex_inv hc hd l i hinv hg l1 hra
          rw [← Option.some.inj hstep]
          exact hres.2
        | some e => exact Option.noConfusion hstep
    · rw [if_neg hg] at hstep
      exact Option.noConfusion hstep
  | heapify vs =>
    have hres := heapify_inv hc hd vs
    have hstep2 : step cmp d l (Op.heapify vs) = some (heapify cmp d vs) := rfl
    rw [hstep2] at hstep
    rw [← Option.some.inj hstep]
    exact hres.2

theorem runOps_go_none {α : Type} (cmp : α → α → Int) (d : Nat) :
    ∀ (ops : List (Op α)),
      ops.foldl (fun acc op => acc.bind (fun l => step cmp d l op)) none = none := by
  intro ops
  induction ops with
  | nil => rfl
  | cons op ops ih =>
    rw [List.foldl_cons]
    have h1 : (Option.bind none fun l => step cmp d l op) = none := rfl
    rw [h1]
    exact ih

/-- Any successful run of API calls from the empty constructor heap yields a
valid heap. -/
theorem runOps_inv {α : Type} {cmp : α → α → Int} (hc : LawfulCmp cmp)
    {d : Nat} (hd : 1 ≤ d) (ops : List (Op α)) :
    ∀ l, runOps cmp d ops = some l → Inv cmp d l := by
  suffices h : ∀ (ops : List (Op α)) (acc : List α), Inv cmp d acc →
      ∀ l, ops.foldl (fun acc op => acc.bind (fun l => step cmp d l op))
        (some acc) = some l → Inv cmp d l by
    intro l hrun
    exact h ops [] inv_nil l hrun
  intro ops
  induction ops with
  | nil =>
    intro acc hacc l hrun
    rw [List.foldl_nil] at hrun
    rw [← Option.some.inj hrun]
    exact hacc
  | cons op ops ih =>
    intro acc hacc l hrun
    rw [List.foldl_cons] at hrun
    have h1 : (Option.bind (some acc) fun l => step cmp d l op) =
        step cmp d acc op := rfl
    rw [h1] at hrun
    cases hst : step cmp d acc op with
    | none =>
      rw [hst, runOps_go_none cmp d ops] at hrun
      exact Option.noConfusion hrun
    | some acc₂ =>
      rw [hst] at hrun
      exact ih acc₂ (step_inv hc hd acc op hacc acc₂ hst) l hrun

end DAryHeap

/-- C3: for every branching factor `d ≥ 1`, every comparator that behaves as
a strict weak order through `isLessThan` (`LawfulCmp`, satisfied in
particular by the default comparator), and every sequence of successful
`insert` / `poll` / `removeAtIndex` / `heapify` calls from the
constructor's empty heap, the resulting heap array satisfies the heap-order
property: for every index `i` and every in-bounds child index `c` of `i`,
`compare(heap[i], heap[c]) ≥ 0`. -/
theorem C3_theorem {α : Type} (cmp : α → α → Int)
    (hc : DAryHeap.LawfulCmp cmp) (d : Nat) (hd : 1 ≤ d)
    (ops : List (DAryHeap.Op α)) (l : List α)
    (hrun : DAryHeap.runOps cmp d ops = some l) :
    ∀ i c, DAryHeap.IsChild d i c → c < l.length →
      ∀ a b, l[i]? = some a → l[c]? = some b → 0 ≤ cmp a b := by
  have hinv := DAryHeap.runOps_inv hc hd ops l hrun
  intro i c hic hcl a b ha hb
  have h1 : ¬ 0 < cmp b a := hinv i c hic hcl (Nat.zero_le _) a b ha hb
  have h2 : ¬ cmp a b < 0 := fun hlt => h1 ((hc.flip b a).mpr hlt)
  omega

/-- C3 (witness). -/
theorem C3_witness : 0 ≤ DAryHeap.defaultLessThanCompare 2 4 :=
  C3_theorem DAryHeap.defaultLessThanCompare DAryHeap.defaultLessThanCompare_lawful
    2 (by omega)
    [DAryHeap.Op.insert 5, DAryHeap.Op.insert 1, DAryHeap.Op.insert 8,
      DAryHeap.Op.insert 3, DAryHeap.Op.insert 9, DAryHeap.Op.poll,
      DAryHeap.Op.removeAt 1, DAryHeap.Op.heapify [4, 2, 7]]
    [2, 4, 7] (by decide) 0 1 ⟨1, by omega, by omega, by omega⟩ (by decide)
    2 4 (by decide) (by decide)


namespace TopSort

/-- Reachability along graph edges (`b ∈ G a` is the edge `a → b`). -/
def Reach (G : Nat → List Nat) : Nat → Nat → Prop :=
  Relation.TransGen (fun a b => b ∈ G a)

/-- A graph admitting a strictly increasing ranking of its edges is acyclic. -/
theorem acyclic_of_ranking {G : Nat → List Nat}
    (hrank : ∀ u w, w ∈ G u → u < w) : ∀ x, ¬ Reach G x x := by
  intro x hx
  have hmono : ∀ a b, Reach G a b → a < b := by
    intro a b h
    induction h with
    | single h1 => exact hrank _ _ h1
    | tail _ h2 ih => exact lt_trans ih (hrank _ _ h2)
  exact absurd (hmono x x hx) (lt_irrefl x)

/-- The traversal invariant of `execute`/`topSort`, relating a state to the
pending set `Q` (vertices marked visited whose `topSort` call is still on the
recursion stack) and the done set `D` (vertices already written to `order`):
`visited = Q ∪ D` with `Q`, `D` disjoint subsets of `0 .. n-1`;
`currentIndex` has moved down one slot per done vertex; `order` holds exactly
the done vertices, injectively, in exactly the slots above `currentIndex`;
and every vertex already in `order` has all its neighbours in `order` at
strictly larger positions. -/
structure Good (G : Nat → List Nat) (n : Nat) (Q D : Finset Nat) (st : St) :
    Prop where
  vlen : st.visited.length = n
  hQD : Disjoint Q D
  hQn : ∀ q ∈ Q, q < n
  hDn : ∀ v ∈ D, v < n
  vis_iff : ∀ w, isVisited st w = true ↔ w ∈ Q ∨ w ∈ D
  ci_eq : st.ci = (n : Int) - 1 - D.card
  ord_dom : ∀ v ∈ D, ∃ j, st.ci < j ∧ st.order j = some v
  ord_ran : ∀ j v, st.order j = some v → v ∈ D ∧ st.ci < j ∧ j ≤ (n : Int) - 1
  ord_inj : ∀ j j' v, st.order j = some v → st.order j' = some v → j = j'
  ord_filled : ∀ j : Int, st.ci < j → j ≤ (n : Int) - 1 → ∃ v, st.order j = some v
  edge_done : ∀ j u, st.order j = some u → ∀ w ∈ G u,
    ∃ j', j < j' ∧ st.order j' = some w

/-- Marking a fresh vertex moves it into the pending set. -/
theorem good_mark {G : Nat → List Nat} {n : Nat} {Q D : Finset Nat} {st : St}
    {v : Nat} (hg : Good G n Q D st) (hv : v < n) (hvQ : v ∉ Q) (hvD : v ∉ D) :
    Good G n (insert v Q) D (mark st v) := by
  constructor
  · show (st.visited.set v true).length = n
    rw [List.length_set]
    exact hg.vlen
  · exact Finset.disjoint_insert_left.mpr ⟨hvD, hg.hQD⟩
  · intro q hq
    rcases Finset.mem_insert.mp hq with rfl | h
    · exact hv
    · exact hg.hQn q h
  · exact hg.hDn
  · intro w
    show (st.visited.set v true).getD w false = true ↔ _
    by_cases hwv : w = v
    · subst hwv
      rw [getD_set_self st.visited true false (by rw [hg.vlen]; exact hv)]
      simp [Finset.mem_insert_self]
    · rw [getD_set_ne st.visited true false (Ne.symm hwv)]
      rw [show st.visited.getD w false = isVisited st w from rfl, hg.vis_iff w]
      constructor
      · intro h
        rcases h with h | h
        · exact Or.inl (Finset.mem_insert_of_mem h)
        · exact Or.inr h
      · intro h
        rcases h with h | h
        · rcases Finset.mem_insert.mp h with h2 | h2
          · exact absurd h2 hwv
          · exact Or.inl h2
        · exact Or.inr h
  · exact hg.ci_eq
  · exact hg.ord_dom
  · exact hg.ord_ran
  · exact hg.ord_inj
  · exact hg.ord_filled
  · exact hg.edge_done

/-- Assigning a pending vertex whose neighbours are all done moves it from
pending to done and keeps the invariant. -/
theorem good_assign {G : Nat → List Nat} {n : Nat} {Q D : Finset Nat} {st : St}
    {v : Nat} (hg : Good G n (insert v Q) D st) (hvQ : v ∉ Q) (hvD : v ∉ D)
    (hv : v < n) (hGv : ∀ w ∈ G v, w ∈ D) :
    Good G n Q (insert v D) (assign st v) := by
  have hciub : st.ci ≤ (n : Int) - 1 := by
    have h1 := hg.ci_eq
    have h2 : (0 : Int) ≤ D.card := Int.natCast_nonneg _
    omega
  constructor
  · exact hg.vlen
  · exact Finset.disjoint_insert_right.mpr
      ⟨hvQ, Finset.disjoint_of_subset_left (Finset.subset_insert v Q) hg.hQD⟩
  · intro q hq
    exact hg.hQn q (Finset.mem_insert_of_mem hq)
  · intro w hw
    rcases Finset.mem_insert.mp hw with rfl | h
    · exact hv
    · exact hg.hDn w h
  · intro w
    rw [show isVisited (assign st v) w = isVisited st w from rfl, hg.vis_iff w]
    simp only [Finset.mem_insert]
    tauto
  · show st.ci - 1 = (n : Int) - 1 - (insert v D).card
    rw [Finset.card_insert_of_not_mem hvD]
    have h1 := hg.ci_eq
    push_cast
    push_cast at h1
    omega
  · intro w hw
    rcases Finset.mem_insert.mp hw with rfl | h
    · refine ⟨st.ci, ?_, ?_⟩
      · show st.ci - 1 < st.ci
        omega
      · show (if st.ci = st.ci then some w else st.order st.ci) = some w
        rw [if_pos rfl]
    · obtain ⟨j, hj1, hj2⟩ := hg.ord_dom w h
      refine ⟨j, ?_, ?_⟩
      · show st.ci - 1 < j
        omega
      · show (if j = st.ci then some v else st.order j) = some w
        rw [if_neg (by omega)]
        exact hj2
  · intro j w h
    by_cases hj : j = st.ci
    · rw [show (assign st v).order j = (if j = st.ci then some v else st.order j)
        from rfl, if_pos hj] at h
      have hwv : w = v := (Option.some.inj h).symm
      subst hwv
      refine ⟨Finset.mem_insert_self _ _, ?_, ?_⟩
      · show st.ci - 1 < j
        omega
      · omega
    · rw [show (assign st v).order j = (if j = st.ci then some v else st.order j)
        from rfl, if_neg hj] at h
      obtain ⟨h1, h2, h3⟩ := hg.ord_ran j w h
      exact ⟨Finset.mem_insert_of_mem h1, by show st.ci - 1 < j; omega, h3⟩
  · intro j j' w h h'
    by_cases hj : j = st.ci <;> by_cases hj' : j' = st.ci
    · rw [hj, hj']
    · rw [show (assign st v).order j = (if j = st.ci then some v else st.order j)
        from rfl, if_pos hj] at h
      rw [show (assign st v).order j' = (if j' = st.ci then some v else st.order j')
        from rfl, if_neg hj'] at h'
      have hwv : w = v := (Option.some.inj h).symm
      subst hwv
      exact absurd (hg.ord_ran j' w h').1 hvD
    · rw [show (assign st v).order j = (if j = st.ci then some v else st.order j)
        from rfl, if_neg hj] at h
      rw [show (assign st v).order j' = (if j' = st.ci then some v else st.order j')
        from rfl, if_pos hj'] at h'
      have hwv : w = v := (Option.some.inj h').symm
      subst hwv
      exact absurd (hg.ord_ran j w h).1 hvD
    · rw [show (assign st v).order j = (if j = st.ci then some v else st.order j)
        from rfl, if_neg hj] at h
      rw [show (assign st v).order j' = (if j' = st.ci then some v else st.order j')
        from rfl, if_neg hj'] at h'
      exact hg.ord_inj j j' w h h'
  · intro j h1 h2
    by_cases hj : j = st.ci
    · refine ⟨v, ?_⟩
      show (if j = st.ci then some v else st.order j) = some v
      rw [if_pos hj]
    · have h1' : st.ci < j := by
        have : st.ci - 1 < j := h1
        omega
      obtain ⟨w, hw⟩ := hg.ord_filled j h1' h2
      refine ⟨w, ?_⟩
      show (if j = st.ci then some v else st.order j) = some w
      rw [if_neg hj]
      exact hw
  · intro j u h w hw
    by_cases hj : j = st.ci
    · rw [show (assign st v).order j = (if j = st.ci then some v else st.order j)
        from rfl, if_pos hj] at h
      have huv : u = v := (Option.some.inj h).symm
      subst huv
      obtain ⟨j', hj'1, hj'2⟩ := hg.ord_dom w (hGv w hw)
      refine ⟨j', by omega, ?_⟩
      show (if j' = st.ci then some u else st.order j') = some w
      rw [if_neg (by omega)]
      exact hj'2
    · rw [show (assign st v).order j = (if j = st.ci then some v else st.order j)
        from rfl, if_neg hj] at h
      obtain ⟨j', hj'1, hj'2⟩ := hg.edge_done j u h w hw
      have hne : j' ≠ st.ci := by
        have := (hg.ord_ran j' w hj'2).2.1
        omega
      refine ⟨j', hj'1, ?_⟩
      show (if j' = st.ci then some v else st.order j') = some w
      rw [if_neg hne]
      exact hj'2

end TopSort

namespace TopSort

/-- The main traversal lemma: running the check–mark–visit loop over a list
of in-range vertices, from a state satisfying the invariant for pending set
`Q` (whose members all reach the listed vertices), preserves the invariant
for some larger done set, never unwrites `order` entries or visited marks,
and leaves every listed vertex visited.  `fuel ≥ n - |Q|` always suffices. -/
theorem visitFold_spec (G : Nat → List Nat) (n : Nat)
    (hG : ∀ u, u < n → ∀ w ∈ G u, w < n)
    (hacy : ∀ x, ¬ Reach G x x) :
    ∀ (fuel : Nat) (ns : List Nat) (Q D : Finset Nat) (st : St),
      n ≤ Q.card + fuel →
      (∀ v ∈ ns, v < n) →
      (∀ q ∈ Q, ∀ v ∈ ns, q = v ∨ Reach G q v) →
      Good G n Q D st →
      ∃ D', D ⊆ D' ∧
        Good G n Q D' (visitFold (visitVertex G fuel) ns st) ∧
        (∀ j w, st.order j = some w →
          (visitFold (visitVertex G fuel) ns st).order j = some w) ∧
        (∀ w, isVisited st w = true →
          isVisited (visitFold (visitVertex G fuel) ns st) w = true) ∧
        (∀ w ∈ ns, isVisited (visitFold (visitVertex G fuel) ns st) w = true) := by
  intro fuel
  induction fuel with
  | zero =>
    intro ns
    induction ns with
    | nil =>
      intro Q D st _ _ _ hg
      exact ⟨D, Finset.Subset.refl D, hg, fun j w h => h, fun w h => h,
        by intro w hw; simp at hw⟩
    | cons v rest ihns =>
      intro Q D st hfuel hns hreach hg
      have hQr : Q = Finset.range n := by
        apply Finset.eq_of_subset_of_card_le
        · intro q hq
          exact Finset.mem_range.mpr (hg.hQn q hq)
        · rw [Finset.card_range]
          omega
      have hvQ : v ∈ Q := by
        rw [hQr]
        exact Finset.mem_range.mpr (hns v (List.mem_cons_self _ _))
      have hvis : isVisited st v = true := (hg.vis_iff v).mpr (Or.inl hvQ)
      have hred : visitFold (visitVertex G 0) (v :: rest) st =
          visitFold (visitVertex G 0) rest st := by
        show (if isVisited st v then visitFold (visitVertex G 0) rest st
          else visitFold (visitVertex G 0) rest (visitVertex G 0 v (mark st v))) = _
        rw [if_pos hvis]
      rw [hred]
      obtain ⟨D', h1, h2, h3, h4, h5⟩ := ihns Q D st hfuel
        (fun w hw => hns w (List.mem_cons_of_mem _ hw))
        (fun q hq w hw => hreach q hq w (List.mem_cons_of_mem _ hw)) hg
      refine ⟨D', h1, h2, h3, h4, ?_⟩
      intro w hw
      rcases List.mem_cons.mp hw with rfl | hw2
      · exact h4 w hvis
      · exact h5 w hw2
  | succ f ihf =>
    intro ns
    induction ns with
    | nil =>
      intro Q D st _ _ _ hg
      exact ⟨D, Finset.Subset.refl D, hg, fun j w h => h, fun w h => h,
        by intro w hw; simp at hw⟩
    | cons v rest ihns =>
      intro Q D st hfuel hns hreach hg
      have hvn : v < n := hns v (List.mem_cons_self _ _)
      by_cases hvis : isVisited st v = true
      · have hred : visitFold (visitVertex G (f + 1)) (v :: rest) st =
            visitFold (visitVertex G (f + 1)) rest st := by
          show (if isVisited st v then visitFold (visitVertex G (f + 1)) rest st
            else visitFold (visitVertex G (f + 1)) rest
              (visitVertex G (f + 1) v (mark st v))) = _
          rw [if_pos hvis]
        rw [hred]
        obtain ⟨D', h1, h2, h3, h4, h5⟩ := ihns Q D st hfuel
          (fun w hw => hns w (List.mem_cons_of_mem _ hw))
          (fun q hq w hw => hreach q hq w (List.mem_cons_of_mem _ hw)) hg
        refine ⟨D', h1, h2, h3, h4, ?_⟩
        intro w hw
        rcases List.mem_cons.mp hw with rfl | hw2
        · exact h4 w hvis
        · exact h5 w hw2
      · have hvQ : v ∉ Q := fun h => hvis ((hg.vis_iff v).mpr (Or.inl h))
        have hvD : v ∉ D := fun h => hvis ((hg.vis_iff v).mpr (Or.inr h))
        have hvisf : isVisited st v = false := by
          cases h : isVisited st v
          · rfl
          · exact absurd h hvis
        have hred : visitFold (visitVertex G (f + 1)) (v :: rest) st =
            visitFold (visitVertex G (f + 1)) rest
              (visitVertex G (f + 1) v (mark st v)) := by
          show (if isVisited st v then visitFold (visitVertex G (f + 1)) rest st
            else visitFold (visitVertex G (f + 1)) rest
              (visitVertex G (f + 1) v (mark st v))) = _
          rw [if_neg (by rw [hvisf]; exact Bool.false_ne_true)]
        rw [hred]
        have hg1 : Good G n (insert v Q) D (mark st v) := good_mark hg hvn hvQ hvD
        have hcard : n ≤ (insert v Q).card + f := by
          rw [Finset.card_insert_of_not_mem hvQ]
          omega
        have hreach1 : ∀ q ∈ insert v Q, ∀ w ∈ G v, q = w ∨ Reach G q w := by
          intro q hq w hw
          rcases Finset.mem_insert.mp hq with rfl | hq2
          · exact Or.inr (Relation.TransGen.single hw)
          · rcases hreach q hq2 v (List.mem_cons_self _ _) with rfl | hr
            · exact Or.inr (Relation.TransGen.single hw)
            · exact Or.inr (Relation.TransGen.tail hr hw)
        obtain ⟨D₁, hD₁, hg₁, hmono₁, hvmono₁, hall₁⟩ := ihf (G v) (insert v Q) D
          (mark st v) hcard (hG v hvn) hreach1 hg1
        set st₁ := visitFold (visitVertex G f) (G v) (mark st v) with hst₁
        have hvD₁ : v ∉ D₁ := by
          intro hmem
          exact (Finset.disjoint_left.mp hg₁.hQD (Finset.mem_insert_self v Q)) hmem
        have hGvD : ∀ w ∈ G v, w ∈ D₁ := by
          intro w hw
          have hvisw := hall₁ w hw
          rcases (hg₁.vis_iff w).mp hvisw with hmem | hmem
          · exfalso
            rcases Finset.mem_insert.mp hmem with rfl | hq
            · exact hacy w (Relation.TransGen.single hw)
            · rcases hreach w hq v (List.mem_cons_self _ _) with rfl | hr
              · exact hacy w (Relation.TransGen.single hw)
              · exact hacy v (Relation.TransGen.trans (Relation.TransGen.single hw) hr)
          · exact hmem
        have hg₂ : Good G n Q (insert v D₁) (assign st₁ v) :=
          good_assign hg₁ hvQ hvD₁ hvn hGvD
        have hvv : visitVertex G (f + 1) v (mark st v) = assign st₁ v := by
          rw [hst₁]
          rfl
        rw [hvv]
        obtain ⟨D₂, hD₂, hg₃, hmono₂, hvmono₂, hall₂⟩ := ihns Q (insert v D₁)
          (assign st₁ v) hfuel (fun w hw => hns w (List.mem_cons_of_mem _ hw))
          (fun q hq w hw => hreach q hq w (List.mem_cons_of_mem _ hw)) hg₂
        refine ⟨D₂, ?_, hg₃, ?_, ?_, ?_⟩
        · intro x hx
          exact hD₂ (Finset.mem_insert_of_mem (hD₁ hx))
        · intro j w h
          have h1 : st₁.order j = some w := hmono₁ j w h
          have hne : j ≠ st₁.ci := by
            have := (hg₁.ord_ran j w h1).2.1
            omega
          have h2 : (assign st₁ v).order j = some w := by
            show (if j = st₁.ci then some v else st₁.order j) = some w
            rw [if_neg hne]
            exact h1
          exact hmono₂ j w h2
        · intro w hw
          have h1 : isVisited (mark st v) w = true := by
            show (st.visited.set v true).getD w false = true
            by_cases hwv : w = v
            · subst hwv
              exact getD_set_self st.visited true false (by rw [hg.vlen]; exact hvn)
            · rw [getD_set_ne st.visited true false (Ne.symm hwv)]
              exact hw
          exact hvmono₂ w (hvmono₁ w h1)
        · intro w hw
          rcases List.mem_cons.mp hw with rfl | hw2
          · apply hvmono₂
            exact (hg₂.vis_iff w).mpr (Or.inr (Finset.mem_insert_self _ _))
          · exact hall₂ w hw2

end TopSort

/-- C7: on an acyclic directed graph — abstracted by its vertex count `n` and
in-range neighbour lists `G` — `Dfs_TopSortStrategy.execute` returns an array
of length `size()` with every slot written, and for every edge `u → v` the
position of `u` is strictly before the position of `v`. -/
theorem C7_theorem (G : Nat → List Nat) (n : Nat)
    (hG : ∀ u, u < n → ∀ w ∈ G u, w < n)
    (hacy : ∀ x, ¬ TopSort.Reach G x x) :
    (TopSort.execute G n).length = n ∧
    (∀ i : Nat, i < n → ∃ v, (TopSort.execute G n)[i]? = some (some v)) ∧
    (∀ u v : Nat, u < n → v ∈ G u →
      ∀ i j : Nat, (TopSort.execute G n)[i]? = some (some u) →
        (TopSort.execute G n)[j]? = some (some v) → i < j) := by
  have hg0 : TopSort.Good G n ∅ ∅
      ⟨List.replicate n false, fun _ => none, (n : Int) - 1⟩ := by
    constructor
    · simp
    · simp
    · intro q hq
      exact absurd hq (Finset.not_mem_empty q)
    · intro w hw
      exact absurd hw (Finset.not_mem_empty w)
    · intro w
      constructor
      · intro h
        exfalso
        have hrep : (List.replicate n false).getD w false = false := by
          by_cases hwn : w < n
          · exact getD_replicate false false hwn
          · rw [List.getD_eq_getElem?_getD,
              List.getElem?_eq_none (by simp; omega)]
            rfl
        rw [show TopSort.isVisited
            ⟨List.replicate n false, fun _ => none, (n : Int) - 1⟩ w
          = (List.replicate n false).getD w false from rfl, hrep] at h
        exact Bool.false_ne_true h
      · intro h
        rcases h with h | h <;> exact absurd h (Finset.not_mem_empty w)
    · simp
    · intro w hw
      exact absurd hw (Finset.not_mem_empty w)
    · intro j w h
      exact Option.noConfusion h
    · intro j j' w h
      exact Option.noConfusion h
    · intro j h1 h2
      exfalso
      have h3 : (n : Int) - 1 < j := h1
      omega
    · intro j u h
      exact Option.noConfusion h
  obtain ⟨D', hD', hgF, hmono, hvmono, hall⟩ :=
    TopSort.visitFold_spec G n hG hacy n (List.range n) ∅ ∅
      ⟨List.replicate n false, fun _ => none, (n : Int) - 1⟩
      (by simp)
      (fun v hv => List.mem_range.mp hv)
      (by intro q hq; exact absurd hq (Finset.not_mem_empty q))
      hg0
  set stF := TopSort.visitFold (TopSort.visitVertex G n) (List.range n)
    ⟨List.replicate n false, fun _ => none, (n : Int) - 1⟩ with hstF
  have hexec : TopSort.execute G n =
      (List.range n).map (fun i : Nat => stF.order (i : Int)) := by
    rw [hstF]
    rfl
  have hDr : D' = Finset.range n := by
    apply Finset.Subset.antisymm
    · intro x hx
      exact Finset.mem_range.mpr (hgF.hDn x hx)
    · intro x hx
      have hv := hall x (List.mem_range.mpr (Finset.mem_range.mp hx))
      rcases (hgF.vis_iff x).mp hv with h | h
      · exact absurd h (Finset.not_mem_empty x)
      · exact h
  have hci : stF.ci = -1 := by
    have h1 := hgF.ci_eq
    rw [hDr, Finset.card_range] at h1
    omega
  have hlen : (TopSort.execute G n).length = n := by
    rw [hexec, List.length_map, List.length_range]
  have hentry : ∀ i : Nat, i < n →
      (TopSort.execute G n)[i]? = some (stF.order (i : Int)) := by
    intro i hi
    rw [hexec, List.getElem?_map, List.getElem?_range hi]
    rfl
  refine ⟨hlen, ?_, ?_⟩
  · intro i hi
    obtain ⟨v, hv⟩ := hgF.ord_filled (i : Int) (by omega) (by omega)
    refine ⟨v, ?_⟩
    rw [hentry i hi, hv]
  · intro u v _hu hv i j hiu hjv
    have hin : i < n := by
      by_contra h
      rw [show (TopSort.execute G n)[i]? = none from
        List.getElem?_eq_none (by rw [hlen]; omega)] at hiu
      exact Option.noConfusion hiu
    have hjn : j < n := by
      by_contra h
      rw [show (TopSort.execute G n)[j]? = none from
        List.getElem?_eq_none (by rw [hlen]; omega)] at hjv
      exact Option.noConfusion hjv
    rw [hentry i hin] at hiu
    rw [hentry j hjn] at hjv
    have horderi : stF.order (i : Int) = some u := Option.some.inj hiu
    have horderj : stF.order (j : Int) = some v := Option.some.inj hjv
    obtain ⟨j', hij', hj'⟩ := hgF.edge_done (i : Int) u horderi v hv
    have hjj : j' = (j : Int) := hgF.ord_inj j' (j : Int) v hj' horderj
    omega

/-- C7 (witness). -/
theorem C7_witness :
    (TopSort.execute (fun v => if v = 0 then [1] else []) 2).length = 2 ∧
      (0 : Nat) < 1 := by
  constructor
  · exact (C7_theorem (fun v => if v = 0 then [1] else []) 2
      (by
        intro u hu w hw
        interval_cases u
        · simp at hw
          omega
        · simp at hw)
      (TopSort.acyclic_of_ranking (by
        intro u w hw
        by_cases hu : u = 0
        · subst hu
          simp at hw
          omega
        · rw [if_neg hu] at hw
          simp at hw))).1
  · exact (C7_theorem (fun v => if v = 0 then [1] else []) 2
      (by
        intro u hu w hw
        interval_cases u
        · simp at hw
          omega
        · simp at hw)
      (TopSort.acyclic_of_ranking (by
        intro u w hw
        by_cases hu : u = 0
        · subst hu
          simp at hw
          omega
        · rw [if_neg hu] at hw
          simp at hw))).2.2 0 1 (by omega) (by decide) 0 1 (by decide) (by decide)

end GraphTheory
